import Mathlib

/-!
Verification of the confit group-synchronization engine.

The repository ships its engine as a single Python script exposing a
ConfGroup class with the operations install, backup, diff, synchronize,
configure, post_install, check and apply, built on a path mapper, two
interchangeable copy strategies (rsync vs. a built-in fallback), a
timestamped backup rotator, a recursive tree differ and a command runner.
This file gives a shallow embedding of that engine over an explicit
filesystem state and proves the central properties of its operations.

The filesystem is modelled as an association list from absolute paths
(lists of name components) to nodes; a node is either a regular file with
byte content and a modification time, or a directory with a modification
time.  A directory's contents are the entries whose path extends it.
-/

namespace Confit

/-- Absolute paths, as lists of name components. -/
abbrev Path := List String

/-- A filesystem node: a regular file (content plus mtime, seconds since
the epoch) or a directory (mtime only). -/
inductive Node where
  | file (content : String) (mtime : Nat)
  | dir (mtime : Nat)
deriving DecidableEq, Repr, Inhabited

/-- Modification time of a node. -/
def Node.mtime : Node → Nat
  | .file _ t => t
  | .dir t => t

/-- Byte content of a node, when it is a regular file. -/
def Node.fileContent : Node → Option String
  | .file c _ => some c
  | .dir _ => none

instance {e a : Type} [DecidableEq e] [DecidableEq a] : DecidableEq (Except e a) :=
  fun x y =>
  match x, y with
  | .error u, .error v =>
    if h : u = v then isTrue (by rw [h]) else isFalse (fun hc => h (Except.error.inj hc))
  | .ok u, .ok v =>
    if h : u = v then isTrue (by rw [h]) else isFalse (fun hc => h (Except.ok.inj hc))
  | .error _, .ok _ => isFalse (fun hc => Except.noConfusion hc)
  | .ok _, .error _ => isFalse (fun hc => Except.noConfusion hc)

/-- A filesystem state: a finite association list from paths to nodes. -/
abbrev FS := List (Path × Node)

/-- Look a path up in a filesystem state (first binding wins). -/
def FS.lookup : FS → Path → Option Node
  | [], _ => none
  | e :: es, p => if e.1 = p then some e.2 else FS.lookup es p

/-- Whether anything exists at a path. -/
def FS.pathExists (fs : FS) (p : Path) : Bool := (FS.lookup fs p).isSome

/-- The paths bound in a filesystem state. -/
def FS.keys (fs : FS) : List Path := fs.map Prod.fst

/-- Drop every binding of a given path. -/
def FS.erase (fs : FS) (p : Path) : FS := fs.filter (fun e => decide (e.1 ≠ p))

/-- Bind a path to a node, replacing any previous binding. -/
def FS.set (fs : FS) (p : Path) (n : Node) : FS := (p, n) :: FS.erase fs p

/-- A well-formed state binds each path at most once. -/
def FS.keysNodup (fs : FS) : Prop := (FS.keys fs).Nodup

instance (fs : FS) : Decidable (FS.keysNodup fs) := by
  unfold FS.keysNodup; infer_instance

/-- Componentwise initial-segment test on lists; on paths it means the
second path lies at or below the first. -/
def isPre {α : Type} [DecidableEq α] : List α → List α → Bool
  | [], _ => true
  | _ :: _, [] => false
  | a :: as, b :: bs => decide (a = b) && isPre as bs

/-- The subtree rooted at a path: every binding at or below it, re-keyed
by the path relative to the root (the root itself maps to the empty
relative path). -/
def FS.subtree (fs : FS) (base : Path) : FS :=
  (fs.filter (fun e => isPre base e.1)).map (fun e => (e.1.drop base.length, e.2))

/-- Remove every binding at or below a path. -/
def FS.eraseTree (fs : FS) (p : Path) : FS := fs.filter (fun e => !(isPre p e.1))

/-- Whether a path occurs as a key of an entry list. -/
def keyIn (es : FS) (q : Path) : Bool := es.any (fun e => decide (e.1 = q))

/-- Re-root a list of relative entries below a destination path. -/
def reroot (es : FS) (d : Path) : FS := es.map (fun e => (d ++ e.1, e.2))

/-! ### Basic lookup lemmas -/

theorem FS.lookup_nil (p : Path) : FS.lookup [] p = none := rfl

theorem FS.lookup_cons (e : Path × Node) (es : FS) (p : Path) :
    FS.lookup (e :: es) p = if e.1 = p then some e.2 else FS.lookup es p := rfl

theorem FS.lookup_append (a b : FS) (q : Path) :
    FS.lookup (a ++ b) q =
      match FS.lookup a q with
      | some n => some n
      | none => FS.lookup b q := by
  induction a with
  | nil => simp [FS.lookup]
  | cons e es ih =>
    by_cases h : e.1 = q
    · simp [FS.lookup, h]
    · simp [FS.lookup, h, ih]

theorem FS.lookup_mem {fs : FS} {q : Path} {n : Node}
    (h : FS.lookup fs q = some n) : (q, n) ∈ fs := by
  induction fs with
  | nil => simp [FS.lookup] at h
  | cons e es ih =>
    rw [FS.lookup_cons] at h
    by_cases he : e.1 = q
    · simp [he] at h
      have he2 : e = (q, n) := by cases e; simp_all
      rw [he2]
      exact List.mem_cons_self _ _
    · simp [he] at h
      exact List.mem_cons_of_mem _ (ih h)

theorem FS.lookup_eq_none_iff (fs : FS) (q : Path) :
    FS.lookup fs q = none ↔ q ∉ FS.keys fs := by
  induction fs with
  | nil => simp [FS.lookup, FS.keys]
  | cons e es ih =>
    rw [FS.lookup_cons]
    by_cases he : e.1 = q
    · simp [he, FS.keys]
    · simp [he, FS.keys] at ih ⊢
      rw [ih]
      tauto

theorem FS.lookup_isSome_iff (fs : FS) (q : Path) :
    (FS.lookup fs q).isSome = true ↔ q ∈ FS.keys fs := by
  have h := FS.lookup_eq_none_iff fs q
  cases hl : FS.lookup fs q with
  | none =>
    simp [hl] at h ⊢
    exact h
  | some n =>
    simp [hl] at h ⊢
    exact h

theorem FS.mem_lookup : ∀ {fs : FS} {q : Path} {n : Node},
    FS.keysNodup fs → (q, n) ∈ fs → FS.lookup fs q = some n
  | [], _, _, _, h => by simp at h
  | e :: es, q, n, hnd, h => by
    have hnd2 : (FS.keys (e :: es)).Nodup := hnd
    rw [show FS.keys (e :: es) = e.1 :: FS.keys es from rfl,
      List.nodup_cons] at hnd2
    rw [FS.lookup_cons]
    rcases List.mem_cons.mp h with h1 | h2
    · rw [h1.symm]
      simp
    · have hq : q ∈ FS.keys es := List.mem_map_of_mem Prod.fst h2
      have hne : e.1 ≠ q := fun hc => hnd2.1 (hc ▸ hq)
      rw [if_neg hne]
      exact FS.mem_lookup hnd2.2 h2

theorem FS.lookup_filter {fs : FS} {pr : Path × Node → Bool} {q : Path}
    (h : ∀ e ∈ fs, e.1 = q → pr e = true) :
    FS.lookup (fs.filter pr) q = FS.lookup fs q := by
  induction fs with
  | nil => rfl
  | cons e es ih =>
    by_cases hq : e.1 = q
    · have : pr e = true := h e (List.mem_cons_self e es) hq
      simp [List.filter_cons, this, FS.lookup_cons, hq]
    · by_cases hp : pr e = true
      · simp [List.filter_cons, hp, FS.lookup_cons, hq]
        exact ih (fun f hf => h f (List.mem_cons_of_mem e hf))
      · simp at hp
        simp [List.filter_cons, hp, FS.lookup_cons, hq]
        exact ih (fun f hf => h f (List.mem_cons_of_mem e hf))

theorem FS.lookup_erase_self (fs : FS) (p : Path) :
    FS.lookup (FS.erase fs p) p = none := by
  induction fs with
  | nil => rfl
  | cons e es ih =>
    by_cases hp : e.1 = p
    · simpa [FS.erase, List.filter_cons, hp] using ih
    · simpa [FS.erase, List.filter_cons, hp, FS.lookup_cons] using ih

theorem FS.lookup_erase (fs : FS) (p q : Path) :
    FS.lookup (FS.erase fs p) q = if p = q then none else FS.lookup fs q := by
  by_cases h : p = q
  · subst h
    rw [if_pos rfl]
    exact FS.lookup_erase_self fs p
  · rw [if_neg h]
    exact FS.lookup_filter (fun e _ he => by simp [he]; exact fun hc => h (hc ▸ rfl))

theorem FS.lookup_set (fs : FS) (p q : Path) (n : Node) :
    FS.lookup (FS.set fs p n) q = if p = q then some n else FS.lookup fs q := by
  unfold FS.set
  rw [FS.lookup_cons]
  by_cases h : p = q
  · simp [h]
  · simp [h, FS.lookup_erase]

theorem keyIn_eq_true_iff (es : FS) (q : Path) :
    keyIn es q = true ↔ q ∈ FS.keys es := by
  unfold keyIn FS.keys
  simp [List.any_eq_true]

theorem keyIn_eq_false_iff (es : FS) (q : Path) :
    keyIn es q = false ↔ FS.lookup es q = none := by
  rw [FS.lookup_eq_none_iff, ← keyIn_eq_true_iff]
  cases h : keyIn es q <;> simp

/-! ### Prefix lemmas -/

theorem isPre_refl {α : Type} [DecidableEq α] (p : List α) : isPre p p = true := by
  induction p with
  | nil => rfl
  | cons a as ih => simp [isPre, ih]

theorem isPre_append {α : Type} [DecidableEq α] (p r : List α) :
    isPre p (p ++ r) = true := by
  induction p with
  | nil => rfl
  | cons a as ih => simp [isPre, ih]

theorem isPre_iff {α : Type} [DecidableEq α] (p q : List α) :
    isPre p q = true ↔ ∃ r, q = p ++ r := by
  constructor
  · intro h
    induction p generalizing q with
    | nil => exact ⟨q, rfl⟩
    | cons a as ih =>
      cases q with
      | nil => simp [isPre] at h
      | cons b bs =>
        simp [isPre] at h
        obtain ⟨r, hr⟩ := ih bs h.2
        exact ⟨r, by simp [h.1, hr]⟩
  · rintro ⟨r, rfl⟩
    exact isPre_append p r

theorem eq_of_isPre_of_length {α : Type} [DecidableEq α] {p q : List α}
    (h : isPre p q = true) (hl : q.length ≤ p.length) : q = p := by
  obtain ⟨r, rfl⟩ := (isPre_iff p q).mp h
  rw [List.length_append] at hl
  have hr : r = [] := List.eq_nil_of_length_eq_zero (by omega)
  simp [hr]

theorem drop_append_self (p r : Path) : (p ++ r).drop p.length = r := by
  induction p with
  | nil => rfl
  | cons a as ih => exact ih

/-! ### Copy strategies -/

/-- Modelled from the spec: the fast copy strategy (rsync invoked in
archive mode with trailing-slash semantics, spec section 4.2; the
CopyBackend implementation itself is absent from src/, only its tests
are).  The whole re-rooted source subtree lands at the destination in one
batch; destination entries with no source counterpart are kept, matching
rsync's default behaviour and the one-directional guarantee of 4.2. -/
def copyTreeFast (fs : FS) (s d : Path) : FS :=
  let es := reroot (FS.subtree fs s) d
  es ++ fs.filter (fun e => !(keyIn es e.1))

/-- Write a list of entries into a state one at a time, left to right. -/
def setAll (es : FS) (fs : FS) : FS := es.foldl (fun a e => FS.set a e.1 e.2) fs

/-- Modelled from the spec: the fallback copy strategy (the built-in
recursive copier of section 4.2, absent from src/): it walks the source
tree and re-creates every file and directory one at a time, including
empty directories, leaving unrelated destination entries alone. -/
def copyTreeFallback (fs : FS) (s d : Path) : FS :=
  setAll (reroot (FS.subtree fs s) d) fs

/-- Proper ancestors of a path, outermost first. -/
def ancestors : Path → List Path
  | [] => []
  | a :: as => [] :: (ancestors as).map (a :: ·)

/-- Modelled from the spec: both strategies create any missing parent
directories of the destination before copying (section 4.2). -/
def mkParents (fs : FS) (p : Path) : FS :=
  (ancestors p).foldl
    (fun a q => if FS.pathExists a q then a else FS.set a q (.dir 0)) fs

/-- The copy mechanism selected once per process: the external fast tool
when resolvable, otherwise the built-in fallback (spec section 4.2). -/
inductive Strategy where
  | fast
  | fallback
deriving DecidableEq, Repr

/-- Copy the item at an absolute source path onto an absolute destination
path under the selected strategy: a file is copied byte-for-byte, a
directory is copied so that its contents land at the destination path
itself (a mapping "a to b" fills b, not b/a).  Missing parents of the
destination are created first. -/
def copyPath (strat : Strategy) (fs : FS) (s d : Path) : FS :=
  match FS.lookup fs s with
  | none => fs
  | some (.file c t) => FS.set (mkParents fs d) d (.file c t)
  | some (.dir _) =>
    match strat with
    | .fast => copyTreeFast (mkParents fs d) s d
    | .fallback => copyTreeFallback (mkParents fs d) s d

/-! ### Overlay characterization of the two strategies -/

/-- Lookup through an overlay: the new entries shadow the base state. -/
def overlayLookup (es fs : FS) (q : Path) : Option Node :=
  match FS.lookup es q with
  | some n => some n
  | none => FS.lookup fs q

theorem lookup_copyTreeFast (fs : FS) (s d q : Path) :
    FS.lookup (copyTreeFast fs s d) q =
      overlayLookup (reroot (FS.subtree fs s) d) fs q := by
  unfold copyTreeFast overlayLookup
  rw [FS.lookup_append]
  cases h : FS.lookup (reroot (FS.subtree fs s) d) q with
  | some n => rfl
  | none =>
    have hk : keyIn (reroot (FS.subtree fs s) d) q = false :=
      (keyIn_eq_false_iff _ _).mpr h
    exact FS.lookup_filter (fun e _ he => by simp [he, hk])

theorem setAll_cons (e : Path × Node) (es : FS) (fs : FS) :
    setAll (e :: es) fs = setAll es (FS.set fs e.1 e.2) := rfl

theorem lookup_setAll : ∀ (es : FS), (FS.keys es).Nodup → ∀ (fs : FS) (q : Path),
    FS.lookup (setAll es fs) q = overlayLookup es fs q
  | [], _, fs, q => by simp [setAll, overlayLookup, FS.lookup]
  | e :: es, hnd, fs, q => by
    have hnd2 : e.1 ∉ FS.keys es ∧ (FS.keys es).Nodup := by
      rw [show FS.keys (e :: es) = e.1 :: FS.keys es from rfl,
        List.nodup_cons] at hnd
      exact hnd
    rw [setAll_cons, lookup_setAll es hnd2.2 _ q]
    unfold overlayLookup
    rw [FS.lookup_cons]
    by_cases hq : e.1 = q
    · have hnone : FS.lookup es q = none :=
        (FS.lookup_eq_none_iff es q).mpr (fun hm => hnd2.1 (hq ▸ hm))
      simp [hnone, FS.lookup_set, hq]
    · have hset := FS.lookup_set fs e.1 q e.2
      rw [if_neg hq] at hset
      rw [if_neg hq]
      cases FS.lookup es q <;> simp [hset]

/-! ### Preservation of key uniqueness -/

theorem keys_filter_sublist (fs : FS) (pr : Path × Node → Bool) :
    (FS.keys (fs.filter pr)).Sublist (FS.keys fs) :=
  List.Sublist.map Prod.fst (List.filter_sublist fs)

theorem FS.keysNodup_filter {fs : FS} (hnd : FS.keysNodup fs)
    (pr : Path × Node → Bool) : FS.keysNodup (fs.filter pr) :=
  List.Nodup.sublist (keys_filter_sublist fs pr) hnd

theorem mem_keys_filter {fs : FS} {pr : Path × Node → Bool} {x : Path}
    (hx : x ∈ FS.keys (fs.filter pr)) :
    ∃ n : Node, (x, n) ∈ fs ∧ pr (x, n) = true := by
  unfold FS.keys at hx
  rw [List.mem_map] at hx
  obtain ⟨e, he, hex⟩ := hx
  rw [List.mem_filter] at he
  have hxe : e = (x, e.2) := by cases e; simp_all
  exact ⟨e.2, hxe ▸ he.1, hxe ▸ he.2⟩

theorem not_mem_keys_erase (fs : FS) (p : Path) :
    p ∉ FS.keys (FS.erase fs p) := by
  intro hm
  obtain ⟨n, -, hpr⟩ := mem_keys_filter hm
  simp at hpr

theorem FS.keysNodup_set {fs : FS} (hnd : FS.keysNodup fs) (p : Path) (n : Node) :
    FS.keysNodup (FS.set fs p n) := by
  unfold FS.keysNodup
  rw [show FS.keys (FS.set fs p n) = p :: FS.keys (FS.erase fs p) from rfl,
    List.nodup_cons]
  exact ⟨not_mem_keys_erase fs p, FS.keysNodup_filter hnd _⟩

theorem keysNodup_parentsFold : ∀ (l : List Path) (fs : FS), FS.keysNodup fs →
    FS.keysNodup (l.foldl
      (fun a q => if FS.pathExists a q then a else FS.set a q (.dir 0)) fs)
  | [], _, h => h
  | q :: l, fs, h => by
    rw [List.foldl_cons]
    by_cases hq : FS.pathExists fs q = true
    · rw [if_pos hq]
      exact keysNodup_parentsFold l fs h
    · rw [if_neg hq]
      exact keysNodup_parentsFold l _ (FS.keysNodup_set h q _)

theorem FS.keysNodup_mkParents {fs : FS} (hnd : FS.keysNodup fs) (p : Path) :
    FS.keysNodup (mkParents fs p) :=
  keysNodup_parentsFold (ancestors p) fs hnd

theorem keys_subtree (fs : FS) (b : Path) :
    FS.keys (FS.subtree fs b) =
      (FS.keys (fs.filter (fun e => isPre b e.1))).map (fun p => p.drop b.length) := by
  unfold FS.subtree FS.keys
  simp [List.map_map]

theorem keysNodup_subtree {fs : FS} (hnd : FS.keysNodup fs) (b : Path) :
    (FS.keys (FS.subtree fs b)).Nodup := by
  rw [keys_subtree]
  apply List.Nodup.map_on
  · intro x hx y hy hxy
    have hpx : isPre b x = true := by
      obtain ⟨n, -, hp⟩ := mem_keys_filter hx
      exact hp
    have hpy : isPre b y = true := by
      obtain ⟨n, -, hp⟩ := mem_keys_filter hy
      exact hp
    obtain ⟨rx, rfl⟩ := (isPre_iff b x).mp hpx
    obtain ⟨ry, rfl⟩ := (isPre_iff b y).mp hpy
    rw [drop_append_self, drop_append_self] at hxy
    rw [hxy]
  · exact FS.keysNodup_filter hnd _

theorem keys_reroot (es : FS) (d : Path) :
    FS.keys (reroot es d) = (FS.keys es).map (fun p => d ++ p) := by
  unfold reroot FS.keys
  simp [List.map_map]

theorem keysNodup_reroot {es : FS} (h : (FS.keys es).Nodup) (d : Path) :
    (FS.keys (reroot es d)).Nodup := by
  rw [keys_reroot]
  refine List.Nodup.map ?_ h
  intro a b hab
  have := congrArg (List.drop d.length) hab
  rwa [drop_append_self, drop_append_self] at this

theorem lookup_copyTreeFallback {fs : FS} (hnd : FS.keysNodup fs) (s d q : Path) :
    FS.lookup (copyTreeFallback fs s d) q =
      overlayLookup (reroot (FS.subtree fs s) d) fs q :=
  lookup_setAll _ (keysNodup_reroot (keysNodup_subtree hnd s) d) fs q

theorem copyTree_strategies_agree {fs : FS} (hnd : FS.keysNodup fs) (s d q : Path) :
    FS.lookup (copyTreeFallback fs s d) q = FS.lookup (copyTreeFast fs s d) q := by
  rw [lookup_copyTreeFallback hnd, lookup_copyTreeFast]

theorem FS.keysNodup_copyTreeFast {fs : FS} (hnd : FS.keysNodup fs) (s d : Path) :
    FS.keysNodup (copyTreeFast fs s d) := by
  unfold copyTreeFast FS.keysNodup FS.keys
  rw [List.map_append]
  rw [List.nodup_append]
  refine ⟨keysNodup_reroot (keysNodup_subtree hnd s) d, FS.keysNodup_filter hnd _, ?_⟩
  intro x hx hxf
  obtain ⟨n, -, hpr⟩ := mem_keys_filter hxf
  simp at hpr
  rw [keyIn_eq_false_iff, FS.lookup_eq_none_iff] at hpr
  exact hpr hx

theorem FS.keysNodup_setAll : ∀ (es : FS) {fs : FS},
    FS.keysNodup fs → FS.keysNodup (setAll es fs)
  | [], _, h => h
  | e :: es, _, h => FS.keysNodup_setAll es (FS.keysNodup_set h e.1 e.2)

theorem FS.keysNodup_copyPath (strat : Strategy) {fs : FS} (hnd : FS.keysNodup fs)
    (s d : Path) : FS.keysNodup (copyPath strat fs s d) := by
  unfold copyPath
  cases h : FS.lookup fs s with
  | none => exact hnd
  | some n =>
    cases n with
    | file c t => exact FS.keysNodup_set (FS.keysNodup_mkParents hnd d) d _
    | dir t =>
      cases strat with
      | fast => exact FS.keysNodup_copyTreeFast (FS.keysNodup_mkParents hnd d) s d
      | fallback => exact FS.keysNodup_setAll _ (FS.keysNodup_mkParents hnd d)

/-! ### Lookup characterization of a copy -/

theorem parentsFold_noop : ∀ (l : List Path) (fs : FS),
    (∀ q ∈ l, FS.pathExists fs q = true) →
    l.foldl (fun a q => if FS.pathExists a q then a else FS.set a q (.dir 0)) fs = fs
  | [], _, _ => rfl
  | q :: l, fs, h => by
    rw [List.foldl_cons, if_pos (h q (List.mem_cons_self q l))]
    exact parentsFold_noop l fs (fun r hr => h r (List.mem_cons_of_mem q hr))

/-- When every proper ancestor of the destination already exists, parent
creation touches nothing. -/
theorem mkParents_noop {fs : FS} {p : Path}
    (h : ∀ q ∈ ancestors p, FS.pathExists fs q = true) : mkParents fs p = fs :=
  parentsFold_noop (ancestors p) fs h

theorem subtree_mem_of_lookup {fs : FS} {p rel : Path} {n : Node}
    (h : FS.lookup fs (p ++ rel) = some n) : (rel, n) ∈ FS.subtree fs p := by
  have hm := FS.lookup_mem h
  unfold FS.subtree
  have hf : (p ++ rel, n) ∈ fs.filter (fun e => isPre p e.1) :=
    List.mem_filter.mpr ⟨hm, isPre_append p rel⟩
  have := List.mem_map_of_mem (fun e : Path × Node => (e.1.drop p.length, e.2)) hf
  simpa [drop_append_self] using this

theorem self_mem_subtree {fs : FS} {p : Path} {n : Node}
    (h : FS.lookup fs p = some n) : (([] : Path), n) ∈ FS.subtree fs p :=
  subtree_mem_of_lookup (by simpa using h)

theorem lookup_copyPath_file {fs : FS} {s d : Path} {c : String} {t : Nat}
    (strat : Strategy) (hs : FS.lookup fs s = some (.file c t)) :
    FS.lookup (copyPath strat fs s d) d = some (.file c t) := by
  unfold copyPath
  rw [hs, FS.lookup_set, if_pos rfl]

theorem lookup_copyPath_dir {fs : FS} (hnd : FS.keysNodup fs) (strat : Strategy)
    {s d : Path} (hpar : mkParents fs d = fs) {t : Nat}
    (hs : FS.lookup fs s = some (.dir t)) {rel : Path} {n : Node}
    (hm : (rel, n) ∈ FS.subtree fs s) :
    FS.lookup (copyPath strat fs s d) (d ++ rel) = some n := by
  have hmm : (d ++ rel, n) ∈ reroot (FS.subtree fs s) d :=
    List.mem_map_of_mem (fun e : Path × Node => (d ++ e.1, e.2)) hm
  have hover : overlayLookup (reroot (FS.subtree fs s) d) fs (d ++ rel) = some n := by
    unfold overlayLookup
    rw [FS.mem_lookup (keysNodup_reroot (keysNodup_subtree hnd s) d) hmm]
  unfold copyPath
  rw [hs]
  cases strat with
  | fast => rw [hpar, lookup_copyTreeFast, hover]
  | fallback => rw [hpar, lookup_copyTreeFallback hnd, hover]

/-- The frame property of a copy: any path outside the written overlay
(and, for a file copy, different from the destination) is untouched. -/
theorem lookup_copyPath_frame {fs : FS} (hnd : FS.keysNodup fs) (strat : Strategy)
    {s d : Path} (hpar : mkParents fs d = fs) {q : Path}
    (hq : FS.lookup (reroot (FS.subtree fs s) d) q = none) (hqd : q ≠ d) :
    FS.lookup (copyPath strat fs s d) q = FS.lookup fs q := by
  unfold copyPath
  cases h : FS.lookup fs s with
  | none => rfl
  | some n =>
    cases n with
    | file c t =>
      rw [hpar, FS.lookup_set, if_neg (fun hc => hqd hc.symm)]
    | dir t =>
      cases strat with
      | fast =>
        rw [hpar, lookup_copyTreeFast]
        unfold overlayLookup
        rw [hq]
      | fallback =>
        rw [hpar, lookup_copyTreeFallback hnd]
        unfold overlayLookup
        rw [hq]

/-! ### The data model (spec section 3)

Modelled from the spec: the ConfGroup record and its operations (spec
sections 3 and 4.5) are absent from src/ — only their tests are present —
so they are reconstructed from the spec's words. -/

/-- Classification of a resolved mapping (spec section 4.1). -/
inductive Kind where
  | file
  | directory
deriving DecidableEq, Repr

/-- The kind of an existing node. -/
def Node.kind : Node → Kind
  | .file _ _ => .file
  | .dir _ => .directory

/-- The typed errors of spec section 7.  InvalidMappingError: source
missing or file/directory kind mismatch; DestinationExistsError: unforced
overwrite attempt (naming the path); CopyError: the copy mechanism
failed; CommandFailedError: a hook command exited non-zero (wrapping the
exit code and command); the duplicate-name failure of configuration
loading. -/
inductive ConfitError where
  | invalidMapping (p : Path)
  | destinationExists (p : Path)
  | copyFailed (p : Path)
  | commandFailed (cmd : String) (code : Int)
  | duplicateName (n : String)
deriving DecidableEq, Repr

/-- Modelled from the spec: PathMapper.resolve (section 4.1, absent from
src/): resolve a declared (source-spec, destination-spec) pair against
the group's destination root, classify it by stat-ing the source, and
fail with InvalidMappingError if the source does not exist or the mapping
would copy a file onto an existing directory or vice versa — detected
before any destructive action. -/
def resolveMapping (fs : FS) (dest : Path) (m : Path × Path) :
    Except ConfitError (Path × Path × Kind) :=
  let absSrc := m.1
  let absDest := dest ++ m.2
  match FS.lookup fs absSrc with
  | none => .error (.invalidMapping absSrc)
  | some sn =>
    match FS.lookup fs absDest with
    | some dn =>
      if Node.kind dn ≠ Node.kind sn then .error (.invalidMapping absDest)
      else .ok (absSrc, absDest, Node.kind sn)
    | none => .ok (absSrc, absDest, Node.kind sn)

/-- Modelled from the spec: a configuration group (spec section 3, absent
from src/): name, destination root, install and sync mappings (sync
defaults to the install list when omitted and may be explicitly empty),
advisory binaries, hook command lists with destination-relative working
directories, a backup retention count (none = never evict) and an
optional host restriction. -/
structure ConfGroup where
  name : String
  dest : Path
  install_files : List (Path × Path)
  sync_files : Option (List (Path × Path))
  check_binaries : List (String × String)
  config_cmds : List (String × Path)
  post_install_cmds : List (String × Path)
  max_backups : Option Nat
  hosts : Option (List String)

/-- Modelled from the spec: the install loop (section 4.5, absent from
src/): process the mappings in declaration order; resolve each one; if
the destination exists and force is false, stop with
DestinationExistsError naming the path — no copy for that or any later
mapping; otherwise copy unconditionally (install takes no backup).  The
returned state is the filesystem as the aborted or completed run left
it. -/
def installList (strat : Strategy) (dest : Path) (force : Bool) :
    List (Path × Path) → FS → FS × Option ConfitError
  | [], fs => (fs, none)
  | m :: ms, fs =>
    match resolveMapping fs dest m with
    | .error e => (fs, some e)
    | .ok (s, d, _) =>
      if FS.pathExists fs d && !force then (fs, some (.destinationExists d))
      else installList strat dest force ms (copyPath strat fs s d)

def ConfGroup.install (strat : Strategy) (g : ConfGroup) (force : Bool)
    (fs : FS) : FS × Option ConfitError :=
  installList strat g.dest force g.install_files fs

/-- Modelled from the spec: TreeDiffer's per-path comparison (section
4.4): a path missing on the destination side, or present with a
different kind, or a file with different byte content, counts as a
difference; a directory facing a directory does not. -/
def nodesDiffer : Node → Option Node → Bool
  | _, none => true
  | .file c _, some (.file c2 _) => decide (c ≠ c2)
  | .dir _, some (.dir _) => false
  | .file _ _, some (.dir _) => true
  | .dir _, some (.file _ _) => true

/-- Modelled from the spec: TreeDiffer.differs (section 4.4, absent from
src/): a missing destination differs unconditionally; two files differ
exactly when their byte content differs; two directories differ when any
relative path present on either side is missing on the other or differs;
a kind mismatch differs. -/
def differs (fs : FS) (s d : Path) : Bool :=
  match FS.lookup fs s, FS.lookup fs d with
  | _, none => true
  | none, some _ => true
  | some sn, some dn =>
    match sn, dn with
    | .file c _, .file c2 _ => decide (c ≠ c2)
    | .dir _, .dir _ =>
      (FS.subtree fs s).any (fun e => nodesDiffer e.2 (FS.lookup fs (d ++ e.1))) ||
      (FS.subtree fs d).any (fun e => !(FS.pathExists fs (s ++ e.1)))
    | .file _ _, .dir _ => true
    | .dir _, .file _ _ => true

def diffList (fs : FS) (dest : Path) (ms : List (Path × Path)) : Bool :=
  ms.any (fun m => differs fs m.1 (dest ++ m.2))

/-- Modelled from the spec: ConfGroup.diff (section 4.5): true when ANY
mapping differs (the verbose flag only adds printing, which has no
filesystem effect and is not modelled). -/
def ConfGroup.diff (g : ConfGroup) (fs : FS) : Bool :=
  diffList fs g.dest g.install_files

/-- Modelled from the spec: the synchronize loop (section 4.5, absent
from src/): for each mapping of sync_files, copy in the REVERSE
direction, destination back to source, only when the destination exists;
a missing destination leaves the source untouched and raises nothing. -/
def syncList (strat : Strategy) (dest : Path) :
    List (Path × Path) → FS → FS
  | [], fs => fs
  | m :: ms, fs =>
    let d := dest ++ m.2
    syncList strat dest ms
      (if FS.pathExists fs d then copyPath strat fs d m.1 else fs)

def ConfGroup.synchronize (strat : Strategy) (g : ConfGroup) (fs : FS) : FS :=
  syncList strat g.dest (g.sync_files.getD g.install_files) fs

/-- Modelled from the spec: ConfGroup.apply is absent from both spec
section 4.5 and src/; reconstructed minimally from its tests
(src/.tests/test_apply.py): for each install mapping whose destination
differs from the source, bring the destination up to date by copying. -/
def applyList (strat : Strategy) (dest : Path) :
    List (Path × Path) → FS → FS
  | [], fs => fs
  | m :: ms, fs =>
    let d := dest ++ m.2
    applyList strat dest ms
      (if differs fs m.1 d then copyPath strat fs m.1 d else fs)

def ConfGroup.apply (strat : Strategy) (g : ConfGroup) (fs : FS) : FS :=
  applyList strat g.dest g.install_files fs

/-! ### Backups (spec sections 3, 4.3, 4.5) -/

/-- Left-pad the decimal rendering of a number with zeros to a width. -/
def padNum (w n : Nat) : String :=
  let s := toString n
  (List.replicate (w - s.length) '0').asString ++ s

/-- Gregorian civil date (year, month, day) from days since the Unix
epoch, by the standard era decomposition. -/
def civilFromDays (z : Nat) : Nat × Nat × Nat :=
  let z2 := z + 719468
  let era := z2 / 146097
  let doe := z2 % 146097
  let yoe := (doe - doe / 1460 + doe / 36524 - doe / 146096) / 365
  let y := yoe + era * 400
  let doy := doe - (365 * yoe + yoe / 4 - yoe / 100)
  let mp := (5 * doy + 2) / 153
  let dd := doy - (153 * mp + 2) / 5 + 1
  let m := if mp < 10 then mp + 3 else mp - 9
  (if m ≤ 2 then y + 1 else y, m, dd)

/-- Modelled from the spec: the backup timestamp convention (section 3):
the modification time of the item being replaced, never the wall clock of
the backup action, formatted YYYY-MM-DD-HH:MM:SS (the script uses
datetime.fromtimestamp with strftime; rendered here in UTC). -/
def formatTimestamp (t : Nat) : String :=
  let days := t / 86400
  let secs := t % 86400
  let ymd := civilFromDays days
  padNum 4 ymd.1 ++ "-" ++ padNum 2 ymd.2.1 ++ "-" ++ padNum 2 ymd.2.2 ++ "-" ++
    padNum 2 (secs / 3600) ++ ":" ++ padNum 2 (secs % 3600 / 60) ++ ":" ++
    padNum 2 (secs % 60)

/-- The final component of a path (its file name). -/
def lastStr (p : Path) : String := p.getLastD ""

/-- Whether the first string is an initial segment of the second. -/
def strStarts (a b : String) : Bool := isPre a.data b.data

/-- Modelled from the spec: the backup name (section 3):
original-name.ba.timestamp, beside the original in the same directory. -/
def backupName (p : Path) (t : Nat) : Path :=
  p.dropLast ++ [lastStr p ++ ".ba." ++ formatTimestamp t]

/-- Rename an item: its whole subtree is re-rooted at the new name and
removed from the old name; anything previously at the new name is
replaced (the same-second collision case of spec section 9). -/
def moveTree (fs : FS) (src dst : Path) : FS :=
  reroot (FS.subtree fs src) dst ++ FS.eraseTree (FS.eraseTree fs src) dst

/-- Whether an entry is a backup item beside an original path: directly
in the same parent directory, its file name extending original-name.ba.
— the persisted filename pattern other invocations read back (spec
section 3). -/
def sibPred (p : Path) (e : Path × Node) : Bool :=
  decide (e.1.length = p.length) && decide (e.1.dropLast = p.dropLast) &&
    strStarts (lastStr p ++ ".ba.") (lastStr e.1)

/-- The backup items beside an original path. -/
def backupSiblings (fs : FS) (p : Path) : FS := fs.filter (sibPred p)

/-- Insert an entry into a list sorted ascending by modification time. -/
def insertByMtime (e : Path × Node) : FS → FS
  | [] => [e]
  | f :: fs =>
    if e.2.mtime ≤ f.2.mtime then e :: f :: fs else f :: insertByMtime e fs

/-- Sort entries ascending by modification time (the eviction order of
spec section 4.3: oldest first). -/
def sortByMtime : FS → FS
  | [] => []
  | e :: es => insertByMtime e (sortByMtime es)

/-- Modelled from the spec: eviction (section 4.3): list the sibling
backups, sort by modification time ascending, and delete the oldest until
the count is at most the retention bound; when the bound is unset skip
eviction entirely. -/
def evictOld (fs : FS) (p : Path) (maxB : Option Nat) : FS :=
  match maxB with
  | none => fs
  | some k =>
    let sorted := sortByMtime (backupSiblings fs p)
    (sorted.take (sorted.length - k)).foldl (fun a e => FS.eraseTree a e.1) fs

/-- Modelled from the spec: BackupRotator.backup_if_exists (section 4.3,
absent from src/): if nothing exists at the path, no-op (false);
otherwise MOVE (not copy) the item to original-name.ba.timestamp — the
timestamp read from the replaced item's own modification time — freeing
the original name, then evict the oldest backups beyond the retention
count. -/
def backupIfExists (fs : FS) (p : Path) (maxB : Option Nat) : FS × Bool :=
  match FS.lookup fs p with
  | none => (fs, false)
  | some n =>
    let fs2 := moveTree fs p (backupName p n.mtime)
    (evictOld fs2 p maxB, true)

def backupList (maxB : Option Nat) (dest : Path) :
    List (Path × Path) → FS → FS
  | [], fs => fs
  | m :: ms, fs =>
    backupList maxB dest ms (backupIfExists fs (dest ++ m.2) maxB).1

/-- Modelled from the spec: ConfGroup.backup (section 4.5): rotate every
existing install destination, regardless of whether its content differs
from the source; no-op per mapping when nothing exists there. -/
def ConfGroup.backup (g : ConfGroup) (fs : FS) : FS :=
  backupList g.max_backups g.dest g.install_files fs

/-! ### Command hooks (spec sections 4.5, 6) -/

/-- The environment's shell, as consumed by the core (spec section 6):
the exit status of a command string run synchronously in a working
directory. -/
structure CmdEnv where
  run : String → Path → Int

/-- Modelled from the spec: the hook-command loop of configure and
post_install (section 4.5, absent from src/): execute each (command,
workdir) pair with the working directory resolved relative to dest; a
non-zero exit status raises immediately (subprocess.CalledProcessError —
the spec's CommandFailedError — wrapping the command and exit code),
aborting the remaining commands.  Returns the trace of executed
(command, absolute workdir) pairs alongside the error, if any. -/
def runCmds (env : CmdEnv) (dest : Path) :
    List (String × Path) → List (String × Path) × Option ConfitError
  | [] => ([], none)
  | (c, w) :: rest =>
    let wd := dest ++ w
    if env.run c wd = 0 then
      let r := runCmds env dest rest
      ((c, wd) :: r.1, r.2)
    else ([(c, wd)], some (.commandFailed c (env.run c wd)))

def ConfGroup.configure (env : CmdEnv) (g : ConfGroup) :
    List (String × Path) × Option ConfitError :=
  runCmds env g.dest g.config_cmds

def ConfGroup.post_install (env : CmdEnv) (g : ConfGroup) :
    List (String × Path) × Option ConfitError :=
  runCmds env g.dest g.post_install_cmds

/-! ### Configuration loading (spec section 3, load_config) -/

/-- A raw group record as the configuration loader consumes it (already
syntactically validated, spec section 6). -/
structure GroupRec where
  name : String
  dest : Path
  install_files : List (Path × Path)
  hosts : Option (List String)
deriving DecidableEq, Repr

/-- Modelled from the spec: host filtering (section 3): an absent or
empty hosts list means always active; otherwise the record is active
exactly on the listed hosts. -/
def hostActive (host : String) (r : GroupRec) : Bool :=
  match r.hosts with
  | none => true
  | some hs => hs.isEmpty || decide (host ∈ hs)

/-- Whether a name is already bound in the loaded group map. -/
def nameIn (m : List (String × GroupRec)) (n : String) : Bool :=
  m.any (fun e => decide (e.1 = n))

/-- Look a group name up in the loaded map (first binding wins). -/
def lookupGroup (m : List (String × GroupRec)) (n : String) : Option GroupRec :=
  (m.find? (fun e => decide (e.1 = n))).map (fun e => e.2)

/-- Modelled from the spec: load_config's group construction (absent from
src/): walk the declared records in order, keep those active on the
current host, fail when two active records carry the same name (the
duplicate-name ConfitError its test expects), and let the first matching
record win in the resulting name-to-group map. -/
def loadGroups (host : String) :
    List GroupRec → Except ConfitError (List (String × GroupRec))
  | [] => .ok []
  | r :: rest =>
    if hostActive host r then
      match loadGroups host rest with
      | .error e => .error e
      | .ok m =>
        if nameIn m r.name then .error (.duplicateName r.name)
        else .ok ((r.name, r) :: m)
    else loadGroups host rest

/-! ### Install lemmas -/

theorem installList_cons (strat : Strategy) (dest : Path) (force : Bool)
    (m : Path × Path) (ms : List (Path × Path)) (fs : FS) :
    installList strat dest force (m :: ms) fs =
      match resolveMapping fs dest m with
      | .error e => (fs, some e)
      | .ok (s, d, _) =>
        if FS.pathExists fs d && !force then (fs, some (.destinationExists d))
        else installList strat dest force ms (copyPath strat fs s d) := rfl

theorem installList_append (strat : Strategy) (dest : Path) (force : Bool)
    (pre post : List (Path × Path)) (fs : FS) :
    installList strat dest force (pre ++ post) fs =
      match installList strat dest force pre fs with
      | (fs1, none) => installList strat dest force post fs1
      | (fs1, some e) => (fs1, some e) := by
  induction pre generalizing fs with
  | nil => simp [installList]
  | cons m ms ih =>
    rw [List.cons_append, installList_cons, installList_cons]
    cases hr : resolveMapping fs dest m with
    | error e => rfl
    | ok v =>
      obtain ⟨s, d, k⟩ := v
      dsimp only
      by_cases hc : (FS.pathExists fs d && !force) = true
      · simp only [hc, if_true]
      · simp only [hc, if_false, Bool.false_eq_true]
        exact ih _

theorem installList_force_of_ok : ∀ (strat : Strategy) (dest : Path)
    (ms : List (Path × Path)) (fs fs1 : FS),
    installList strat dest false ms fs = (fs1, none) →
    installList strat dest true ms fs = (fs1, none)
  | _, _, [], fs, fs1, h => h
  | strat, dest, m :: ms, fs, fs1, h => by
    rw [installList_cons] at h ⊢
    cases hr : resolveMapping fs dest m with
    | error e => rw [hr] at h; simp at h
    | ok v =>
      obtain ⟨s, d, k⟩ := v
      rw [hr] at h
      dsimp only at h ⊢
      by_cases hc : FS.pathExists fs d = true
      · rw [if_pos (by simp [hc])] at h
        simp at h
      · rw [if_neg (by simp [hc])] at h
        rw [if_neg (by simp)]
        exact installList_force_of_ok strat dest ms _ fs1 h

/-- C1: for a mapping whose destination already exists, install(force
= false) stops with DestinationExistsError naming the path and performs
no copy for that or any later mapping (the returned state is exactly the
state the earlier mappings left); install(force = true) on the same state
proceeds past the mapping, overwriting the destination with the source's
content byte-for-byte: a file source lands at the destination with its
exact bytes, and every item below a directory source lands at the
corresponding path below the destination (a pre-existing destination item
with no source counterpart may survive under a directory destination, per
the one-directional copy guarantee of spec section 4.2). -/
theorem install_dest_exists_behaviour
    (strat : Strategy) (g : ConfGroup) (fs fs1 : FS)
    (pre post : List (Path × Path)) (sm dm d : Path) (k : Kind)
    (hsplit : g.install_files = pre ++ (sm, dm) :: post)
    (hpre : installList strat g.dest false pre fs = (fs1, none))
    (hres : resolveMapping fs1 g.dest (sm, dm) = .ok (sm, d, k))
    (hex : FS.pathExists fs1 d = true) :
    ConfGroup.install strat g false fs = (fs1, some (.destinationExists d)) ∧
    ConfGroup.install strat g true fs =
      installList strat g.dest true post (copyPath strat fs1 sm d) ∧
    (∀ c t, FS.lookup fs1 sm = some (.file c t) →
      FS.lookup (copyPath strat fs1 sm d) d = some (.file c t)) ∧
    (FS.keysNodup fs1 → mkParents fs1 d = fs1 →
      ∀ t, FS.lookup fs1 sm = some (.dir t) →
      ∀ rel n, (rel, n) ∈ FS.subtree fs1 sm →
        FS.lookup (copyPath strat fs1 sm d) (d ++ rel) = some n) := by
  refine ⟨?_, ?_, ?_, ?_⟩
  · unfold ConfGroup.install
    rw [hsplit, installList_append, hpre]
    dsimp only
    rw [installList_cons, hres]
    dsimp only
    rw [if_pos (by simp [hex])]
  · unfold ConfGroup.install
    rw [hsplit, installList_append, installList_force_of_ok strat g.dest pre fs fs1 hpre]
    dsimp only
    rw [installList_cons, hres]
    dsimp only
    rw [if_neg (by simp)]
  · intro c t hs
    exact lookup_copyPath_file strat hs
  · intro hnd hpar t hs rel n hm
    exact lookup_copyPath_dir hnd strat hpar hs hm

/-- C7: a directory mapping a to b in install_files results in the
destination directory b containing everything a contains — every file
with its exact bytes and every subdirectory, empty ones included — placed
directly below b (not as a nested copy b/a: any path outside the
re-rooted source overlay keeps its previous binding). -/
theorem install_directory_contents
    (strat : Strategy) (g : ConfGroup) (fs fs1 : FS) (force : Bool)
    (pre post : List (Path × Path)) (a dm d : Path) (t : Nat)
    (hsplit : g.install_files = pre ++ (a, dm) :: post)
    (hpre : installList strat g.dest force pre fs = (fs1, none))
    (hres : resolveMapping fs1 g.dest (a, dm) = .ok (a, d, .directory))
    (hnoex : FS.pathExists fs1 d = false ∨ force = true)
    (hnd : FS.keysNodup fs1)
    (hpar : mkParents fs1 d = fs1)
    (hsrc : FS.lookup fs1 a = some (.dir t)) :
    ConfGroup.install strat g force fs =
      installList strat g.dest force post (copyPath strat fs1 a d) ∧
    (∀ rel n, (rel, n) ∈ FS.subtree fs1 a →
      FS.lookup (copyPath strat fs1 a d) (d ++ rel) = some n) ∧
    (∀ q, FS.lookup (reroot (FS.subtree fs1 a) d) q = none → q ≠ d →
      FS.lookup (copyPath strat fs1 a d) q = FS.lookup fs1 q) := by
  refine ⟨?_, ?_, ?_⟩
  · unfold ConfGroup.install
    rw [hsplit, installList_append, hpre]
    dsimp only
    rw [installList_cons, hres]
    dsimp only
    rcases hnoex with hne | hf
    · rw [if_neg (by simp [hne])]
    · rw [if_neg (by simp [hf])]
  · intro rel n hm
    exact lookup_copyPath_dir hnd strat hpar hsrc hm
  · intro q hq hqd
    exact lookup_copyPath_frame hnd strat hpar hq hqd

/-! ### Diff lemmas -/

theorem FS.lookup_eq_none_of_not_exists {fs : FS} {p : Path}
    (h : FS.pathExists fs p = false) : FS.lookup fs p = none := by
  unfold FS.pathExists at h
  cases hl : FS.lookup fs p with
  | none => rfl
  | some n => rw [hl] at h; simp at h

theorem differs_of_missing_dest (fs : FS) (s : Path) {d : Path}
    (h : FS.pathExists fs d = false) : differs fs s d = true := by
  unfold differs
  rw [FS.lookup_eq_none_of_not_exists h]
  cases hls : FS.lookup fs s <;> rfl

theorem differs_file_eq {fs : FS} {s d : Path} {c : String} {t1 t2 : Nat}
    (hs : FS.lookup fs s = some (.file c t1))
    (hd : FS.lookup fs d = some (.file c t2)) : differs fs s d = false := by
  unfold differs
  rw [hs, hd]
  simp

theorem differs_of_nested_file {fs : FS} {s d : Path} {ts td : Nat}
    {rel : Path} {c1 c2 : String} {t1 t2 : Nat}
    (hs : FS.lookup fs s = some (.dir ts)) (hd : FS.lookup fs d = some (.dir td))
    (hrs : FS.lookup fs (s ++ rel) = some (.file c1 t1))
    (hrd : FS.lookup fs (d ++ rel) = some (.file c2 t2))
    (hne : c1 ≠ c2) : differs fs s d = true := by
  unfold differs
  rw [hs, hd]
  dsimp only
  apply Bool.or_eq_true_iff.mpr
  left
  apply List.any_eq_true.mpr
  refine ⟨(rel, .file c1 t1), subtree_mem_of_lookup hrs, ?_⟩
  rw [show ((rel, Node.file c1 t1) : Path × Node).2 = Node.file c1 t1 from rfl]
  dsimp only
  rw [hrd]
  unfold nodesDiffer
  exact decide_eq_true hne

/-! ### Sync and apply lemmas -/

theorem syncList_cons (strat : Strategy) (dest : Path) (m : Path × Path)
    (ms : List (Path × Path)) (fs : FS) :
    syncList strat dest (m :: ms) fs =
      syncList strat dest ms
        (if FS.pathExists fs (dest ++ m.2) then copyPath strat fs (dest ++ m.2) m.1
         else fs) := rfl

theorem syncList_append (strat : Strategy) (dest : Path)
    (pre post : List (Path × Path)) (fs : FS) :
    syncList strat dest (pre ++ post) fs =
      syncList strat dest post (syncList strat dest pre fs) := by
  induction pre generalizing fs with
  | nil => rfl
  | cons m ms ih =>
    rw [List.cons_append, syncList_cons, syncList_cons]
    exact ih _

theorem applyList_cons (strat : Strategy) (dest : Path) (m : Path × Path)
    (ms : List (Path × Path)) (fs : FS) :
    applyList strat dest (m :: ms) fs =
      applyList strat dest ms
        (if differs fs m.1 (dest ++ m.2) then copyPath strat fs m.1 (dest ++ m.2)
         else fs) := rfl

theorem applyList_append (strat : Strategy) (dest : Path)
    (pre post : List (Path × Path)) (fs : FS) :
    applyList strat dest (pre ++ post) fs =
      applyList strat dest post (applyList strat dest pre fs) := by
  induction pre generalizing fs with
  | nil => rfl
  | cons m ms ih =>
    rw [List.cons_append, applyList_cons, applyList_cons]
    exact ih _

/-! ### Claim theorems for diff, synchronize and apply -/

/-- C4: diff(verbose) is true exactly when some mapping differs; a
missing destination differs unconditionally; identical file bytes do not
differ; differing bytes — including a differing file nested inside a
directory pair — differ. -/
theorem diff_reports_any_difference :
    (∀ (g : ConfGroup) (fs : FS),
      ConfGroup.diff g fs = true ↔
        ∃ m ∈ g.install_files, differs fs m.1 (g.dest ++ m.2) = true) ∧
    (∀ (fs : FS) (s d : Path), FS.pathExists fs d = false →
      differs fs s d = true) ∧
    (∀ (fs : FS) (s d : Path) (c : String) (t1 t2 : Nat),
      FS.lookup fs s = some (.file c t1) → FS.lookup fs d = some (.file c t2) →
      differs fs s d = false) ∧
    (∀ (fs : FS) (s d : Path) (ts td : Nat) (rel : Path) (c1 c2 : String)
      (t1 t2 : Nat),
      FS.lookup fs s = some (.dir ts) → FS.lookup fs d = some (.dir td) →
      FS.lookup fs (s ++ rel) = some (.file c1 t1) →
      FS.lookup fs (d ++ rel) = some (.file c2 t2) → c1 ≠ c2 →
      differs fs s d = true) := by
  refine ⟨?_, ?_, ?_, ?_⟩
  · intro g fs
    unfold ConfGroup.diff diffList
    simp [List.any_eq_true]
  · intro fs s d h
    exact differs_of_missing_dest fs s h
  · intro fs s d c t1 t2 hs hd
    exact differs_file_eq hs hd
  · intro fs s d ts td rel c1 c2 t1 t2 hs hd hrs hrd hne
    exact differs_of_nested_file hs hd hrs hrd hne

def wfsC4 : FS := [([], .dir 0), (["s"], .dir 0), (["d"], .dir 0),
  (["s", "x"], .file "one" 0), (["d", "x"], .file "two" 0),
  (["d", "y"], .file "one" 9)]

def wgC4 : ConfGroup :=
  ⟨"g", [], [(["s"], ["d"])], none, [], [], [], none, none⟩

theorem diff_reports_any_difference_witness :
    differs wfsC4 ["s"] ["missing"] = true ∧
    differs wfsC4 ["s", "x"] ["d", "y"] = false ∧
    differs wfsC4 ["s"] ["d"] = true ∧
    ConfGroup.diff wgC4 wfsC4 = true := by
  refine ⟨?_, ?_, ?_, ?_⟩
  · exact diff_reports_any_difference.2.1 wfsC4 ["s"] ["missing"] (by decide)
  · exact diff_reports_any_difference.2.2.1 wfsC4 ["s", "x"] ["d", "y"] "one" 0 9
      (by decide) (by decide)
  · exact diff_reports_any_difference.2.2.2 wfsC4 ["s"] ["d"] 0 0 ["x"] "one" "two"
      0 0 (by decide) (by decide) (by decide) (by decide) (by decide)
  · exact (diff_reports_any_difference.1 wgC4 wfsC4).mpr
      ⟨(["s"], ["d"]), by decide, by decide⟩

/-- C5: synchronize copies in the reverse direction, destination back to
source, only when the destination exists: a missing destination leaves
the whole state — the source-side path included — untouched and raises
nothing (the step is the identity), while an existing destination file is
copied back so the source holds its exact bytes. -/
theorem synchronize_reverse_only_when_dest_exists
    (strat : Strategy) (g : ConfGroup) (fs fs1 : FS)
    (pre post : List (Path × Path)) (sm dm : Path)
    (hsplit : g.sync_files.getD g.install_files = pre ++ (sm, dm) :: post)
    (hpre : syncList strat g.dest pre fs = fs1) :
    (FS.pathExists fs1 (g.dest ++ dm) = false →
      ConfGroup.synchronize strat g fs = syncList strat g.dest post fs1) ∧
    (∀ c t, FS.lookup fs1 (g.dest ++ dm) = some (.file c t) →
      ConfGroup.synchronize strat g fs =
        syncList strat g.dest post (copyPath strat fs1 (g.dest ++ dm) sm) ∧
      FS.lookup (copyPath strat fs1 (g.dest ++ dm) sm) sm = some (.file c t)) := by
  constructor
  · intro hmiss
    unfold ConfGroup.synchronize
    rw [hsplit, syncList_append, hpre, syncList_cons]
    rw [if_neg (by simp [hmiss])]
  · intro c t hfile
    constructor
    · unfold ConfGroup.synchronize
      rw [hsplit, syncList_append, hpre, syncList_cons]
      rw [if_pos (by unfold FS.pathExists; simp [hfile])]
    · exact lookup_copyPath_file strat hfile

def wfsC5 : FS := [([], .dir 0), (["src"], .dir 0), (["dst"], .dir 0),
  (["dst", "t"], .file "live" 3)]

def wgC5 : ConfGroup :=
  ⟨"g", ["dst"], [(["src", "t"], ["t"]), (["src", "u"], ["u"])],
    none, [], [], [], none, none⟩

theorem synchronize_reverse_only_when_dest_exists_witness :
    FS.lookup (ConfGroup.synchronize .fallback wgC5 wfsC5) ["src", "t"] =
      some (.file "live" 3) ∧
    ConfGroup.synchronize .fallback wgC5 wfsC5 =
      copyPath .fallback wfsC5 ["dst", "t"] ["src", "t"] := by
  have h := synchronize_reverse_only_when_dest_exists .fallback wgC5 wfsC5 wfsC5
    [] [(["src", "u"], ["u"])] ["src", "t"] ["t"] rfl rfl
  have h2 := (h.2 "live" 3 (by decide))
  have h3 : ConfGroup.synchronize .fallback wgC5 wfsC5 =
      copyPath .fallback wfsC5 ["dst", "t"] ["src", "t"] := by
    rw [h2.1, syncList_cons]
    rw [if_neg (by decide)]
    rfl
  exact ⟨h3 ▸ h2.2, h3⟩

/-- C10: beyond the seven spec-listed operations, ConfGroup exposes
apply(verbose): on a mapping whose destination does not yet exist it
copies the source item to the destination — the destination file gets the
source's exact bytes, and a directory source lands whole, every entry at
its corresponding path — under either copy strategy. -/
theorem apply_copies_missing_destinations
    (strat : Strategy) (g : ConfGroup) (fs fs1 : FS)
    (pre post : List (Path × Path)) (sm dm : Path)
    (hsplit : g.install_files = pre ++ (sm, dm) :: post)
    (hpre : applyList strat g.dest pre fs = fs1)
    (hmiss : FS.pathExists fs1 (g.dest ++ dm) = false) :
    ConfGroup.apply strat g fs =
      applyList strat g.dest post (copyPath strat fs1 sm (g.dest ++ dm)) ∧
    (∀ c t, FS.lookup fs1 sm = some (.file c t) →
      FS.lookup (copyPath strat fs1 sm (g.dest ++ dm)) (g.dest ++ dm) =
        some (.file c t)) ∧
    (FS.keysNodup fs1 → mkParents fs1 (g.dest ++ dm) = fs1 →
      ∀ t, FS.lookup fs1 sm = some (.dir t) →
      ∀ rel n, (rel, n) ∈ FS.subtree fs1 sm →
        FS.lookup (copyPath strat fs1 sm (g.dest ++ dm)) ((g.dest ++ dm) ++ rel) =
          some n) := by
  refine ⟨?_, ?_, ?_⟩
  · unfold ConfGroup.apply
    rw [hsplit, applyList_append, hpre, applyList_cons]
    rw [if_pos (differs_of_missing_dest fs1 sm hmiss)]
  · intro c t hs
    exact lookup_copyPath_file strat hs
  · intro hnd hpar t hs rel n hm
    exact lookup_copyPath_dir hnd strat hpar hs hm

def wfsC10 : FS := [([], .dir 0), (["rep"], .dir 0), (["home"], .dir 0),
  (["rep", "conf"], .dir 1), (["rep", "conf", "rc"], .file "set x" 2),
  (["rep", "conf", "mods"], .dir 3)]

def wgC10 : ConfGroup :=
  ⟨"g", ["home"], [(["rep", "conf"], ["conf"])], none, [], [], [], none, none⟩

theorem apply_copies_missing_destinations_witness :
    FS.lookup (ConfGroup.apply .fast wgC10 wfsC10) ["home", "conf", "rc"] =
      some (.file "set x" 2) ∧
    FS.lookup (ConfGroup.apply .fast wgC10 wfsC10) ["home", "conf", "mods"] =
      some (.dir 3) := by
  have h := apply_copies_missing_destinations .fast wgC10 wfsC10 wfsC10
    [] [] ["rep", "conf"] ["conf"] rfl rfl (by decide)
  constructor
  · rw [h.1]
    exact h.2.2 (by decide) (by decide) 1 (by decide) ["rc"] (.file "set x" 2)
      (by decide)
  · rw [h.1]
    exact h.2.2 (by decide) (by decide) 1 (by decide) ["mods"] (.dir 3) (by decide)

/-! ### Claim fixtures and witnesses for install -/

def wfsC1 : FS := [([], .dir 0), (["src"], .dir 0), (["dst"], .dir 0),
  (["src", "f"], .file "new" 1), (["dst", "f"], .file "old" 2)]

def wgC1 : ConfGroup :=
  ⟨"g", ["dst"], [(["src", "f"], ["f"])], none, [], [], [], none, none⟩

theorem install_dest_exists_behaviour_witness :
    ConfGroup.install .fast wgC1 false wfsC1 =
      (wfsC1, some (.destinationExists ["dst", "f"])) ∧
    FS.lookup (ConfGroup.install .fast wgC1 true wfsC1).1 ["dst", "f"] =
      some (.file "new" 1) := by
  have h := install_dest_exists_behaviour .fast wgC1 wfsC1 wfsC1 [] []
    ["src", "f"] ["f"] ["dst", "f"] Kind.file rfl rfl rfl (by decide)
  refine ⟨h.1, ?_⟩
  rw [h.2.1]
  exact h.2.2.1 "new" 1 (by decide)

def cfsC1 : FS := [([], .dir 0), (["a"], .dir 1), (["dst"], .dir 2),
  (["dst", "b"], .dir 3), (["dst", "b", "stale"], .file "x" 4)]

def cgC1 : ConfGroup :=
  ⟨"g", ["dst"], [(["a"], ["b"])], none, [], [], [], none, none⟩

/-- The claim's force=true conclusion is too strong as stated: when the
pre-existing destination is a directory holding an extra item with no
source counterpart, the forced install succeeds but the overwritten
destination does NOT match the source byte-for-byte — the stale item
survives (neither copy strategy deletes it, per the one-directional
guarantee of spec section 4.2), so the trees still differ. -/
theorem install_force_stale_item_counterexample :
    (ConfGroup.install .fast cgC1 true cfsC1).2 = none ∧
    FS.lookup (ConfGroup.install .fast cgC1 true cfsC1).1 ["dst", "b", "stale"] =
      some (.file "x" 4) ∧
    FS.lookup cfsC1 ["a", "stale"] = none ∧
    differs (ConfGroup.install .fast cgC1 true cfsC1).1 ["a"] ["dst", "b"] = true := by
  decide

def wfsC7 : FS := [([], .dir 0), (["a"], .dir 1), (["a", "empty"], .dir 2),
  (["a", "subd"], .dir 3), (["a", "subd", "f1"], .file "c1" 4), (["dst"], .dir 5)]

def wgC7 : ConfGroup :=
  ⟨"g", ["dst"], [(["a"], ["b"])], none, [], [], [], none, none⟩

theorem install_directory_contents_witness :
    FS.lookup (ConfGroup.install .fast wgC7 false wfsC7).1 ["dst", "b", "empty"] =
      some (.dir 2) ∧
    FS.lookup (ConfGroup.install .fast wgC7 false wfsC7).1
      ["dst", "b", "subd", "f1"] = some (.file "c1" 4) ∧
    FS.lookup (ConfGroup.install .fast wgC7 false wfsC7).1 ["dst", "b", "a"] =
      none := by
  have h := install_directory_contents .fast wgC7 wfsC7 wfsC7 false [] []
    ["a"] ["b"] ["dst", "b"] 1 rfl rfl rfl (Or.inl (by decide))
    (by decide) (by decide) (by decide)
  refine ⟨?_, ?_, ?_⟩
  · rw [h.1]
    exact h.2.1 ["empty"] (.dir 2) (by decide)
  · rw [h.1]
    exact h.2.1 ["subd", "f1"] (.file "c1" 4) (by decide)
  · rw [h.1]
    have h3 := h.2.2 ["dst", "b", "a"] (by decide) (by decide)
    exact h3.trans (by decide)

/-! ### Command-hook lemmas and claim C8 -/

theorem runCmds_all_ok (env : CmdEnv) (dest : Path) :
    ∀ (cmds : List (String × Path)),
    (∀ p ∈ cmds, env.run p.1 (dest ++ p.2) = 0) →
    runCmds env dest cmds = (cmds.map (fun p => (p.1, dest ++ p.2)), none)
  | [], _ => rfl
  | (c, w) :: rest, h => by
    unfold runCmds
    rw [if_pos (h (c, w) (List.mem_cons_self _ _))]
    rw [runCmds_all_ok env dest rest (fun p hp => h p (List.mem_cons_of_mem _ hp))]
    rfl

theorem runCmds_fail (env : CmdEnv) (dest : Path) :
    ∀ (pre : List (String × Path)) (c : String) (w : Path)
    (post : List (String × Path)),
    (∀ p ∈ pre, env.run p.1 (dest ++ p.2) = 0) →
    env.run c (dest ++ w) ≠ 0 →
    runCmds env dest (pre ++ (c, w) :: post) =
      (pre.map (fun p => (p.1, dest ++ p.2)) ++ [(c, dest ++ w)],
       some (.commandFailed c (env.run c (dest ++ w))))
  | [], c, w, post, _, hbad => by
    rw [List.nil_append]
    unfold runCmds
    rw [if_neg hbad]
    rfl
  | (c0, w0) :: pre, c, w, post, h, hbad => by
    rw [List.cons_append]
    unfold runCmds
    rw [if_pos (h (c0, w0) (List.mem_cons_self _ _))]
    rw [runCmds_fail env dest pre c w post
      (fun p hp => h p (List.mem_cons_of_mem _ hp)) hbad]
    rfl

/-- C8: configure(verbose) and post_install(verbose) execute each
(command, workdir) pair with the working directory resolved relative to
dest, and a non-zero exit status raises CommandFailedError immediately,
aborting the remaining commands: the executed trace covers the commands
up to and including the failing one — each with its dest-resolved
workdir — and nothing after it; when every command exits zero, the whole
list runs. -/
theorem configure_and_post_install_fail_fast (env : CmdEnv) (g : ConfGroup) :
    ((∀ p ∈ g.config_cmds, env.run p.1 (g.dest ++ p.2) = 0) →
      ConfGroup.configure env g =
        (g.config_cmds.map (fun p => (p.1, g.dest ++ p.2)), none)) ∧
    (∀ pre c w post, g.config_cmds = pre ++ (c, w) :: post →
      (∀ p ∈ pre, env.run p.1 (g.dest ++ p.2) = 0) →
      env.run c (g.dest ++ w) ≠ 0 →
      ConfGroup.configure env g =
        (pre.map (fun p => (p.1, g.dest ++ p.2)) ++ [(c, g.dest ++ w)],
         some (.commandFailed c (env.run c (g.dest ++ w))))) ∧
    ((∀ p ∈ g.post_install_cmds, env.run p.1 (g.dest ++ p.2) = 0) →
      ConfGroup.post_install env g =
        (g.post_install_cmds.map (fun p => (p.1, g.dest ++ p.2)), none)) ∧
    (∀ pre c w post, g.post_install_cmds = pre ++ (c, w) :: post →
      (∀ p ∈ pre, env.run p.1 (g.dest ++ p.2) = 0) →
      env.run c (g.dest ++ w) ≠ 0 →
      ConfGroup.post_install env g =
        (pre.map (fun p => (p.1, g.dest ++ p.2)) ++ [(c, g.dest ++ w)],
         some (.commandFailed c (env.run c (g.dest ++ w))))) := by
  refine ⟨?_, ?_, ?_, ?_⟩
  · intro h
    exact runCmds_all_ok env g.dest g.config_cmds h
  · intro pre c w post hsplit hok hbad
    unfold ConfGroup.configure
    rw [hsplit]
    exact runCmds_fail env g.dest pre c w post hok hbad
  · intro h
    exact runCmds_all_ok env g.dest g.post_install_cmds h
  · intro pre c w post hsplit hok hbad
    unfold ConfGroup.post_install
    rw [hsplit]
    exact runCmds_fail env g.dest pre c w post hok hbad

def wenvC8 : CmdEnv := ⟨fun c _ => if c = "good" then 0 else 1⟩

def wgC8 : ConfGroup :=
  ⟨"g", ["dest"], [], none, [], [("good", ["wd"]), ("bad", ["wd2"]), ("never", [])],
    [("good", ["wd"])], none, none⟩

theorem configure_and_post_install_fail_fast_witness :
    ConfGroup.configure wenvC8 wgC8 =
      ([("good", ["dest", "wd"]), ("bad", ["dest", "wd2"])],
       some (.commandFailed "bad" 1)) ∧
    ConfGroup.post_install wenvC8 wgC8 = ([("good", ["dest", "wd"])], none) := by
  have h := configure_and_post_install_fail_fast wenvC8 wgC8
  constructor
  · have h2 := h.2.1 [("good", ["wd"])] "bad" ["wd2"] [("never", [])] rfl
      (by decide) (by decide)
    exact h2
  · exact h.2.2.1 (by decide)

/-! ### Configuration-loading lemmas and claim C9 -/

/-- Whether an Except result is a success. -/
def isOkE {ε α : Type} : Except ε α → Bool
  | .ok _ => true
  | .error _ => false

theorem loadGroups_ok_shape (host : String) :
    ∀ (l : List GroupRec) (m : List (String × GroupRec)),
    loadGroups host l = .ok m →
    m = (l.filter (fun r => hostActive host r)).map (fun r => (r.name, r))
  | [], m, h => by
    have h2 : ([] : List (String × GroupRec)) = m := Except.ok.inj h
    rw [← h2]
    simp
  | r :: rest, m, h => by
    unfold loadGroups at h
    by_cases hact : hostActive host r = true
    · rw [if_pos hact] at h
      cases hrest : loadGroups host rest with
      | error e => rw [hrest] at h; simp at h
      | ok m2 =>
        rw [hrest] at h
        dsimp only at h
        by_cases hdup : nameIn m2 r.name = true
        · rw [if_pos hdup] at h; simp at h
        · rw [if_neg hdup] at h
          simp at h
          rw [List.filter_cons_of_pos hact, List.map_cons]
          rw [h.symm, loadGroups_ok_shape host rest m2 hrest]
    · rw [if_neg hact] at h
      rw [List.filter_cons_of_neg hact]
      exact loadGroups_ok_shape host rest m h

theorem nameIn_iff (m : List (String × GroupRec)) (n : String) :
    nameIn m n = true ↔ n ∈ m.map Prod.fst := by
  unfold nameIn
  simp [List.any_eq_true]

theorem loadGroups_ok_nodup (host : String) :
    ∀ (l : List GroupRec) (m : List (String × GroupRec)),
    loadGroups host l = .ok m → (m.map Prod.fst).Nodup
  | [], m, h => by
    have h2 : ([] : List (String × GroupRec)) = m := Except.ok.inj h
    rw [← h2]
    simp
  | r :: rest, m, h => by
    unfold loadGroups at h
    by_cases hact : hostActive host r = true
    · rw [if_pos hact] at h
      cases hrest : loadGroups host rest with
      | error e => rw [hrest] at h; simp at h
      | ok m2 =>
        rw [hrest] at h
        dsimp only at h
        by_cases hdup : nameIn m2 r.name = true
        · rw [if_pos hdup] at h; simp at h
        · rw [if_neg hdup] at h
          simp at h
          rw [h.symm, List.map_cons, List.nodup_cons]
          exact ⟨fun hm => hdup ((nameIn_iff m2 r.name).mpr hm),
            loadGroups_ok_nodup host rest m2 hrest⟩
    · rw [if_neg hact] at h
      exact loadGroups_ok_nodup host rest m h

theorem loadGroups_ok_of_nodup (host : String) :
    ∀ (l : List GroupRec),
    ((l.filter (fun r => hostActive host r)).map GroupRec.name).Nodup →
    loadGroups host l =
      .ok ((l.filter (fun r => hostActive host r)).map (fun r => (r.name, r)))
  | [], _ => rfl
  | r :: rest, h => by
    unfold loadGroups
    by_cases hact : hostActive host r = true
    · rw [if_pos hact]
      rw [List.filter_cons_of_pos hact, List.map_cons, List.nodup_cons] at h
      rw [loadGroups_ok_of_nodup host rest h.2]
      dsimp only
      have hni : nameIn ((rest.filter (fun r => hostActive host r)).map
          (fun r => (r.name, r))) r.name = false := by
        rw [Bool.eq_false_iff]
        intro hc
        rw [nameIn_iff, List.map_map] at hc
        exact h.1 hc
      rw [if_neg (by simp [hni])]
      rw [List.filter_cons_of_pos hact, List.map_cons]
    · rw [if_neg hact]
      rw [List.filter_cons_of_neg hact] at h ⊢
      exact loadGroups_ok_of_nodup host rest h

theorem lookupGroup_map_pairing (n : String) :
    ∀ (L : List GroupRec),
    lookupGroup (L.map (fun r => (r.name, r))) n =
      L.find? (fun r => decide (r.name = n))
  | [] => rfl
  | r :: rest => by
    unfold lookupGroup
    rw [List.map_cons]
    by_cases hn : r.name = n
    · rw [List.find?_cons_of_pos _ (by simp [hn]),
        List.find?_cons_of_pos _ (by simp [hn])]
      simp
    · rw [List.find?_cons_of_neg _ (by simp [hn]),
        List.find?_cons_of_neg _ (by simp [hn])]
      exact lookupGroup_map_pairing n rest

theorem not_nodup_of_two_dups {x : String} (A B C : List String) :
    ¬ (A ++ x :: B ++ x :: C).Nodup := by
  intro h
  rw [List.nodup_append] at h
  exact h.2.2 (show x ∈ A ++ x :: B by simp) (show x ∈ x :: C by simp)

/-- C9: after loading, group names are unique among the active groups
(those passing host filtering): two same-named groups both active on the
current host make loading fail, while duplicate names across groups whose
host sets do not overlap are permitted, and the first matching group wins
— the loaded map binds the name to the first active record, dest and
mappings included. -/
theorem load_config_duplicate_group_names (host : String) :
    (∀ (l1 l2 l3 : List GroupRec) (r1 r2 : GroupRec),
      hostActive host r1 = true → hostActive host r2 = true →
      r1.name = r2.name →
      isOkE (loadGroups host (l1 ++ r1 :: l2 ++ r2 :: l3)) = false) ∧
    (∀ l m, loadGroups host l = .ok m → (m.map Prod.fst).Nodup) ∧
    (∀ l, ((l.filter (fun r => hostActive host r)).map GroupRec.name).Nodup →
      loadGroups host l =
        .ok ((l.filter (fun r => hostActive host r)).map (fun r => (r.name, r)))) ∧
    (∀ l m n, loadGroups host l = .ok m →
      lookupGroup m n =
        (l.filter (fun r => hostActive host r)).find? (fun r => decide (r.name = n))) := by
  refine ⟨?_, loadGroups_ok_nodup host, loadGroups_ok_of_nodup host, ?_⟩
  · intro l1 l2 l3 r1 r2 ha1 ha2 hname
    cases hres : loadGroups host (l1 ++ r1 :: l2 ++ r2 :: l3) with
    | error e => rfl
    | ok m =>
      exfalso
      have hnd := loadGroups_ok_nodup host _ m hres
      rw [loadGroups_ok_shape host _ m hres] at hnd
      rw [List.map_map] at hnd
      have hnd2 : (((l1 ++ r1 :: l2 ++ r2 :: l3).filter
          (fun r => hostActive host r)).map GroupRec.name).Nodup := hnd
      rw [List.filter_append, List.filter_append, List.filter_cons_of_pos ha1,
        List.filter_cons_of_pos ha2] at hnd2
      rw [List.map_append, List.map_cons, List.map_append, List.map_cons] at hnd2
      rw [hname] at hnd2
      exact not_nodup_of_two_dups _ _ _ hnd2
  · intro l m n hok
    rw [loadGroups_ok_shape host l m hok]
    exact lookupGroup_map_pairing n _

def wrecs : List GroupRec :=
  [⟨"dup", ["d1"], [(["s1"], ["t1"])], some ["h1"]⟩,
   ⟨"dup", ["d2"], [(["s2"], ["t2"])], some ["h2"]⟩]

def wrecsBoth : List GroupRec :=
  [⟨"dup", ["d1"], [(["s1"], ["t1"])], none⟩,
   ⟨"dup", ["d2"], [(["s2"], ["t2"])], none⟩]

theorem load_config_duplicate_group_names_witness :
    isOkE (loadGroups "h1" wrecsBoth) = false ∧
    loadGroups "h1" wrecs = .ok [("dup", ⟨"dup", ["d1"], [(["s1"], ["t1"])], some ["h1"]⟩)] ∧
    lookupGroup [("dup", ⟨"dup", ["d1"], [(["s1"], ["t1"])], some ["h1"]⟩)] "dup" =
      some ⟨"dup", ["d1"], [(["s1"], ["t1"])], some ["h1"]⟩ := by
  have h := load_config_duplicate_group_names "h1"
  refine ⟨?_, ?_, ?_⟩
  · exact h.1 [] [] [] ⟨"dup", ["d1"], [(["s1"], ["t1"])], none⟩
      ⟨"dup", ["d2"], [(["s2"], ["t2"])], none⟩ (by decide) (by decide) rfl
  · have h3 := h.2.2.1 wrecs (by decide)
    exact h3.trans (by decide)
  · have h4 := h.2.2.2 wrecs _ "dup" (h.2.2.1 wrecs (by decide))
    exact h4.trans (by decide)

/-! ### Generic list lemmas for the backup rotator -/

theorem any_congr_mem {α : Type} {p q : α → Bool} :
    ∀ {l : List α}, (∀ x ∈ l, p x = q x) → l.any p = l.any q
  | [], _ => rfl
  | x :: xs, h => by
    rw [List.any_cons, List.any_cons, h x (List.mem_cons_self x xs),
      any_congr_mem (fun y hy => h y (List.mem_cons_of_mem x hy))]

theorem filter_map_comm {α β : Type} (f : α → β) (q : β → Bool) :
    ∀ (l : List α), (l.map f).filter q = (l.filter (fun x => q (f x))).map f
  | [] => rfl
  | x :: xs => by
    rw [List.map_cons, List.filter_cons, List.filter_cons]
    cases hq : q (f x) with
    | true => rw [if_pos rfl, if_pos rfl, List.map_cons, filter_map_comm f q xs]
    | false => rw [if_neg (by simp), if_neg (by simp), filter_map_comm f q xs]

theorem filter_unique_entry {x : Path × Node} {pred : Path × Node → Bool} :
    ∀ {fs : FS}, FS.keysNodup fs → x ∈ fs →
    (∀ e ∈ fs, (pred e = true ↔ e = x)) → fs.filter pred = [x]
  | [], _, hx, _ => by simp at hx
  | e :: fs2, hnd, hx, hiff => by
    have hnd2 : e.1 ∉ FS.keys fs2 ∧ FS.keysNodup fs2 := by
      have hnd3 : (FS.keys (e :: fs2)).Nodup := hnd
      rw [show FS.keys (e :: fs2) = e.1 :: FS.keys fs2 from rfl,
        List.nodup_cons] at hnd3
      exact hnd3
    rw [List.filter_cons]
    rcases List.mem_cons.mp hx with h1 | h2
    · rw [if_pos (by rw [(hiff e (List.mem_cons_self e fs2))]; exact h1.symm)]
      rw [← h1]
      rw [List.filter_eq_nil_iff.mpr]
      intro f hf hpf
      have hfx : f = x := (hiff f (List.mem_cons_of_mem e hf)).mp hpf
      apply hnd2.1
      rw [← h1, ← hfx]
      exact List.mem_map_of_mem Prod.fst hf
    · have hex : e ≠ x := by
        intro hc
        apply hnd2.1
        rw [hc]
        exact List.mem_map_of_mem Prod.fst h2
      rw [if_neg (by rw [(hiff e (List.mem_cons_self e fs2))]; exact hex)]
      exact filter_unique_entry hnd2.2 h2
        (fun f hf => hiff f (List.mem_cons_of_mem e hf))

theorem isPre_false_of_longer {α : Type} [DecidableEq α] {a b : List α}
    (h : b.length < a.length) : isPre a b = false := by
  cases hp : isPre a b with
  | false => rfl
  | true =>
    obtain ⟨r, rfl⟩ := (isPre_iff a b).mp hp
    rw [List.length_append] at h
    omega

/-- The comparison used by eviction: ascending modification time. -/
def mtimeLE (a b : Path × Node) : Prop := a.2.mtime ≤ b.2.mtime

theorem perm_insertByMtime (e : Path × Node) :
    ∀ (l : FS), (insertByMtime e l).Perm (e :: l)
  | [] => List.Perm.refl _
  | f :: fs => by
    unfold insertByMtime
    by_cases h : e.2.mtime ≤ f.2.mtime
    · rw [if_pos h]
    · rw [if_neg h]
      exact ((perm_insertByMtime e fs).cons f).trans (List.Perm.swap e f fs)

theorem perm_sortByMtime : ∀ (l : FS), (sortByMtime l).Perm l
  | [] => List.Perm.refl _
  | e :: es =>
    (perm_insertByMtime e (sortByMtime es)).trans ((perm_sortByMtime es).cons e)

theorem sorted_insertByMtime (e : Path × Node) :
    ∀ {l : FS}, l.Pairwise mtimeLE → (insertByMtime e l).Pairwise mtimeLE
  | [], _ => List.pairwise_singleton _ _
  | f :: fs, h => by
    unfold insertByMtime
    rw [List.pairwise_cons] at h
    by_cases hle : e.2.mtime ≤ f.2.mtime
    · rw [if_pos hle]
      rw [List.pairwise_cons]
      refine ⟨?_, List.pairwise_cons.mpr h⟩
      intro b hb
      rcases List.mem_cons.mp hb with h1 | h2
      · rw [h1]; exact hle
      · exact Nat.le_trans hle (h.1 b h2)
    · rw [if_neg hle]
      rw [List.pairwise_cons]
      constructor
      · intro b hb
        have hb2 := (perm_insertByMtime e fs).mem_iff.mp hb
        rcases List.mem_cons.mp hb2 with h1 | h2
        · rw [h1]
          exact Nat.le_of_not_le hle
        · exact h.1 b h2
      · exact sorted_insertByMtime e h.2

theorem sorted_sortByMtime : ∀ (l : FS), (sortByMtime l).Pairwise mtimeLE
  | [] => List.Pairwise.nil
  | e :: es => sorted_insertByMtime e (sorted_sortByMtime es)

theorem foldl_eraseTree_eq : ∀ (ds : FS) (fs : FS),
    ds.foldl (fun a e => FS.eraseTree a e.1) fs =
      fs.filter (fun e => !(ds.any (fun dd => isPre dd.1 e.1)))
  | [], fs => by simp
  | d :: ds, fs => by
    rw [List.foldl_cons, foldl_eraseTree_eq ds (FS.eraseTree fs d.1)]
    unfold FS.eraseTree
    rw [List.filter_filter]
    apply List.filter_congr
    intro e _
    rw [List.any_cons, Bool.not_or, Bool.and_comm]

theorem filter_not_mem_take :
    ∀ (l : FS) (m : Nat), l.Nodup →
    l.filter (fun x => !(decide (x ∈ l.take m))) = l.drop m
  | l, 0, _ => by simp
  | [], m + 1, _ => rfl
  | x :: l2, m + 1, h => by
    rw [List.nodup_cons] at h
    rw [List.drop_succ_cons, List.filter_cons]
    rw [if_neg (by simp [List.take_succ_cons])]
    calc List.filter (fun y => !(decide (y ∈ (x :: l2).take (m + 1)))) l2
      = l2.filter (fun y => !(decide (y ∈ l2.take m))) := by
          apply List.filter_congr
          intro y hy
          have hxy : y ≠ x := fun hc => h.1 (hc ▸ hy)
          simp [List.take_succ_cons, hxy]
      _ = l2.drop m := filter_not_mem_take l2 m h.2

theorem mem_drop_iff_count_lt {S : FS} :
    ∀ (m : Nat), S.Pairwise (fun a b => a.2.mtime < b.2.mtime) → S.Nodup →
    ∀ e ∈ S,
    (e ∈ S.drop m ↔ (S.filter (fun f => e.2.mtime < f.2.mtime)).length <
      S.length - m) := by
  induction S with
  | nil => intro m _ _ e he; simp at he
  | cons x S2 ih =>
    intro m hlt hnd e he
    rw [List.pairwise_cons] at hlt
    rw [List.nodup_cons] at hnd
    cases m with
    | zero =>
      simp only [List.drop_zero]
      constructor
      · intro _
        have hne : e ∉ (x :: S2).filter (fun f => e.2.mtime < f.2.mtime) := by
          intro hc
          have := (List.mem_filter.mp hc).2
          simp at this
        have hsub : ((x :: S2).filter (fun f => e.2.mtime < f.2.mtime)).Sublist
            (x :: S2) := List.filter_sublist _
        have hlen := List.Sublist.length_le hsub
        rcases Nat.lt_or_ge (((x :: S2).filter
            (fun f => e.2.mtime < f.2.mtime)).length) (x :: S2).length with hl | hl
        · omega
        · exfalso
          have heq : (x :: S2).filter (fun f => e.2.mtime < f.2.mtime) =
              x :: S2 := List.Sublist.eq_of_length hsub (Nat.le_antisymm hlen hl)
          apply hne
          rw [heq]
          exact he
      · intro _
        exact he
    | succ m2 =>
      rw [List.drop_succ_cons]
      rcases List.mem_cons.mp he with h1 | h2
      · constructor
        · intro hc
          exfalso
          have : e ∈ S2 := List.mem_of_mem_drop hc
          rw [h1] at this
          exact hnd.1 this
        · intro hc
          exfalso
          have hcount : (x :: S2).filter (fun f => e.2.mtime < f.2.mtime) = S2 := by
            rw [List.filter_cons]
            rw [if_neg (by rw [h1]; simp)]
            apply List.filter_eq_self.mpr
            intro b hb
            rw [h1]
            simp
            exact hlt.1 b hb
          rw [hcount] at hc
          simp at hc
          omega
      · have hxe : ¬ (e.2.mtime < x.2.mtime) := by
          have := hlt.1 e h2
          omega
        have hcount : (x :: S2).filter (fun f => e.2.mtime < f.2.mtime) =
            S2.filter (fun f => e.2.mtime < f.2.mtime) := by
          rw [List.filter_cons, if_neg (by simp [hxe])]
        rw [hcount]
        rw [show (x :: S2).length - (m2 + 1) = S2.length - m2 from by
          simp only [List.length_cons]
          omega]
        exact ih m2 hlt.2 hnd.2 e h2

/-! ### Backup-name and move lemmas -/

theorem lastStr_concat (l : Path) (s : String) : lastStr (l ++ [s]) = s := by
  unfold lastStr
  simp [List.getLastD_concat]

theorem neAppendBa (a ts : String) : a ++ ".ba." ++ ts ≠ a := by
  intro h
  have hl := congrArg String.length h
  rw [String.length_append, String.length_append] at hl
  have h4 : (".ba." : String).length = 4 := rfl
  omega

theorem backupName_ne (p : Path) (t : Nat) : backupName p t ≠ p := by
  intro h
  unfold backupName at h
  rcases List.eq_nil_or_concat p with hp | ⟨L, b, hp⟩
  · rw [hp] at h
    simp at h
  · rw [List.concat_eq_append] at hp
    rw [hp] at h
    rw [List.dropLast_concat, lastStr_concat] at h
    have h2 := List.append_cancel_left h
    have h3 : b ++ ".ba." ++ formatTimestamp t = b := by
      injection h2
    exact neAppendBa b (formatTimestamp t) h3

theorem backupName_length {p : Path} (hp : p ≠ []) (t : Nat) :
    (backupName p t).length = p.length := by
  unfold backupName
  rw [List.length_append, List.length_dropLast]
  have hpos : 0 < p.length := List.length_pos.mpr hp
  simp
  omega

theorem isPre_backupName_self_false (p : Path) (t : Nat) :
    isPre (backupName p t) p = false := by
  cases hb : isPre (backupName p t) p with
  | false => rfl
  | true =>
    exfalso
    obtain ⟨r, hr⟩ := (isPre_iff _ _).mp hb
    have hl := congrArg List.length hr
    rw [List.length_append] at hl
    have hr0 : r = [] := by
      rcases List.eq_nil_or_concat p with hp | ⟨L, b, hp⟩
      · rw [hp] at hr
        exact (List.append_eq_nil.mp hr.symm).2
      · rw [List.concat_eq_append] at hp
        have hbl : (backupName p t).length = p.length :=
          backupName_length (by rw [hp]; simp) t
        rw [hbl] at hl
        exact List.eq_nil_of_length_eq_zero (by omega)
    rw [hr0, List.append_nil] at hr
    exact backupName_ne p t hr.symm

theorem strStarts_append (a b : String) : strStarts a (a ++ b) = true := by
  unfold strStarts
  have hd : (a ++ b).data = a.data ++ b.data := String.data_append a b
  rw [hd]
  exact isPre_append _ _

theorem sibPred_self_eq_false (p : Path) (e : Path × Node) (he : e.1 = p) :
    sibPred p e = false := by
  unfold sibPred
  rw [he]
  have hs : strStarts (lastStr p ++ ".ba.") (lastStr p) = false := by
    unfold strStarts
    apply isPre_false_of_longer
    rw [String.data_append]
    rw [List.length_append]
    have h4 : (".ba." : String).data.length = 4 := rfl
    omega
  simp [hs]

theorem sibPred_backupName {p : Path} (hp : p ≠ []) (t : Nat) (n : Node) :
    sibPred p (backupName p t, n) = true := by
  unfold sibPred
  have h1 : (backupName p t).length = p.length := backupName_length hp t
  have h2 : (backupName p t).dropLast = p.dropLast := by
    unfold backupName
    exact List.dropLast_concat ..
  have h3 : lastStr (backupName p t) =
      lastStr p ++ ".ba." ++ formatTimestamp t := by
    unfold backupName
    exact lastStr_concat _ _
  rw [show ((backupName p t, n) : Path × Node).1 = backupName p t from rfl]
  rw [h1, h2, h3]
  simp [strStarts_append]

theorem sibPred_length {p : Path} {e : Path × Node} (h : sibPred p e = true) :
    e.1.length = p.length := by
  unfold sibPred at h
  rw [Bool.and_eq_true, Bool.and_eq_true] at h
  exact of_decide_eq_true h.1.1

theorem sibPred_key_ne {p : Path} {e : Path × Node} (h : sibPred p e = true) :
    e.1 ≠ p := by
  intro hc
  rw [sibPred_self_eq_false p e hc] at h
  exact Bool.false_ne_true h

theorem lookup_eraseTree (fs : FS) (p q : Path) :
    FS.lookup (FS.eraseTree fs p) q =
      if isPre p q = true then none else FS.lookup fs q := by
  by_cases h : isPre p q = true
  · rw [if_pos h, FS.lookup_eq_none_iff]
    intro hm
    obtain ⟨n, -, hpr⟩ := mem_keys_filter hm
    rw [h] at hpr
    simp at hpr
  · rw [if_neg h]
    apply FS.lookup_filter
    intro e _ he
    rw [he]
    simp at h
    simp [h]

theorem lookup_reroot_none (es : FS) (dst q : Path) (h : isPre dst q = false) :
    FS.lookup (reroot es dst) q = none := by
  rw [FS.lookup_eq_none_iff]
  intro hm
  rw [keys_reroot, List.mem_map] at hm
  obtain ⟨r, -, hr⟩ := hm
  rw [← hr, isPre_append] at h
  simp at h

theorem lookup_moveTree_moved {fs : FS} (hnd : FS.keysNodup fs) {src : Path}
    (dst : Path) {rel : Path} {n : Node} (hm : (rel, n) ∈ FS.subtree fs src) :
    FS.lookup (moveTree fs src dst) (dst ++ rel) = some n := by
  unfold moveTree
  rw [FS.lookup_append]
  rw [FS.mem_lookup (keysNodup_reroot (keysNodup_subtree hnd src) dst)
    (List.mem_map_of_mem (fun e : Path × Node => (dst ++ e.1, e.2)) hm)]

theorem lookup_moveTree_oldpath_none (fs : FS) {src dst : Path}
    (h : isPre dst src = false) :
    FS.lookup (moveTree fs src dst) src = none := by
  unfold moveTree
  rw [FS.lookup_append, lookup_reroot_none _ _ _ h]
  dsimp only
  rw [lookup_eraseTree, if_neg (by simp [h]), lookup_eraseTree,
    if_pos (isPre_refl src)]

theorem keysNodup_moveTree {fs : FS} (hnd : FS.keysNodup fs) (src dst : Path) :
    FS.keysNodup (moveTree fs src dst) := by
  unfold moveTree FS.keysNodup FS.keys
  rw [List.map_append, List.nodup_append]
  refine ⟨keysNodup_reroot (keysNodup_subtree hnd src) dst,
    FS.keysNodup_filter (FS.keysNodup_filter hnd _) _, ?_⟩
  intro x hx hx2
  obtain ⟨n2, -, hpr⟩ := mem_keys_filter hx2
  have hx3 : x ∈ FS.keys (reroot (FS.subtree fs src) dst) := hx
  rw [keys_reroot, List.mem_map] at hx3
  obtain ⟨r, -, hr⟩ := hx3
  rw [← hr, isPre_append] at hpr
  simp at hpr

theorem backupList_cons (maxB : Option Nat) (dest : Path) (m : Path × Path)
    (ms : List (Path × Path)) (fs : FS) :
    backupList maxB dest (m :: ms) fs =
      backupList maxB dest ms (backupIfExists fs (dest ++ m.2) maxB).1 := rfl

theorem backupList_append (maxB : Option Nat) (dest : Path)
    (pre post : List (Path × Path)) (fs : FS) :
    backupList maxB dest (pre ++ post) fs =
      backupList maxB dest post (backupList maxB dest pre fs) := by
  induction pre generalizing fs with
  | nil => rfl
  | cons m ms ih =>
    rw [List.cons_append, backupList_cons, backupList_cons]
    exact ih _

theorem backupSiblings_moveTree {fs : FS} {p : Path} {n : Node}
    (hnd : FS.keysNodup fs) (hp : p ≠ []) (hex : FS.lookup fs p = some n)
    (t : Nat)
    (hfresh : ∀ e ∈ fs, isPre (backupName p t) e.1 = false) :
    backupSiblings (moveTree fs p (backupName p t)) p =
      (backupName p t, n) :: backupSiblings fs p := by
  unfold backupSiblings moveTree
  rw [List.filter_append]
  have hpart1 : (reroot (FS.subtree fs p) (backupName p t)).filter (sibPred p) =
      [(backupName p t, n)] := by
    unfold reroot FS.subtree
    rw [List.map_map, filter_map_comm, List.filter_filter]
    rw [show (List.filter
        (fun a => sibPred p (((fun e : Path × Node => (backupName p t ++ e.1, e.2)) ∘
          (fun e : Path × Node => (List.drop (List.length p) e.1, e.2))) a) &&
          isPre p a.1) fs) =
      (List.filter (fun e => isPre p e.1 &&
        sibPred p (backupName p t ++ e.1.drop p.length, e.2)) fs) from
      List.filter_congr (fun e he => by simp [Function.comp, Bool.and_comm])]
    have huniq : (fs.filter (fun e =>
        isPre p e.1 && sibPred p (backupName p t ++ e.1.drop p.length, e.2))) =
        [(p, n)] := by
      apply filter_unique_entry hnd (FS.lookup_mem hex)
      intro e he
      constructor
      · intro hpred
        rw [Bool.and_eq_true] at hpred
        have hlen := sibPred_length hpred.2
        rw [List.length_append, backupName_length hp t] at hlen
        have hdrop : e.1.drop p.length = [] :=
          List.eq_nil_of_length_eq_zero (by omega)
        obtain ⟨r, hr⟩ := (isPre_iff p e.1).mp hpred.1
        rw [hr, drop_append_self] at hdrop
        rw [hdrop, List.append_nil] at hr
        have he2 : e = (p, e.2) := by cases e; simp_all
        have hl2 : FS.lookup fs p = some e.2 := by
          rw [← hr]
          exact FS.mem_lookup hnd (he2 ▸ he)
        rw [hex] at hl2
        rw [he2, Option.some.inj hl2]
      · intro hez
        rw [hez]
        dsimp only
        rw [isPre_refl]
        rw [List.drop_length, List.append_nil]
        rw [sibPred_backupName hp t n]
        rfl
    rw [huniq]
    simp [Function.comp, List.drop_length]
  have hpart2 : (FS.eraseTree (FS.eraseTree fs p) (backupName p t)).filter
      (sibPred p) = fs.filter (sibPred p) := by
    unfold FS.eraseTree
    rw [List.filter_filter, List.filter_filter]
    apply List.filter_congr
    intro e he
    cases hsib : sibPred p e with
    | false => simp [hsib]
    | true =>
      have hA : isPre p e.1 = false := by
        cases hcase : isPre p e.1 with
        | false => rfl
        | true =>
          exfalso
          have heq : e.1 = p := eq_of_isPre_of_length hcase
            (Nat.le_of_eq (sibPred_length hsib))
          exact sibPred_key_ne hsib heq
      have hB : isPre (backupName p t) e.1 = false := hfresh e he
      simp [hA, hB, hsib]
  rw [hpart1, hpart2]
  rfl

theorem eq_of_same_key {l : FS} (hndk : FS.keysNodup l) {a b : Path × Node}
    (ha : a ∈ l) (hb : b ∈ l) (hk : a.1 = b.1) : a = b := by
  have h1 : FS.lookup l a.1 = some a.2 :=
    FS.mem_lookup hndk (by rw [Prod.mk.eta]; exact ha)
  have h2 : FS.lookup l b.1 = some b.2 :=
    FS.mem_lookup hndk (by rw [Prod.mk.eta]; exact hb)
  rw [hk, h2] at h1
  have h3 : b.2 = a.2 := Option.some.inj h1
  cases a
  cases b
  simp_all

theorem length_filter_lt {α : Type} (p : α → Bool) :
    ∀ (l : List α) (x : α), x ∈ l → p x = false → (l.filter p).length < l.length
  | [], x, hx, _ => by simp at hx
  | y :: l2, x, hx, hpx => by
    rw [List.filter_cons]
    rcases List.mem_cons.mp hx with h1 | h2
    · rw [← h1]
      rw [if_neg (by simp [hpx])]
      rw [List.length_cons]
      exact Nat.lt_succ_of_le (List.Sublist.length_le (List.filter_sublist l2))
    · by_cases hpy : p y = true
      · rw [if_pos hpy]
        rw [List.length_cons, List.length_cons]
        exact Nat.succ_lt_succ (length_filter_lt p l2 x h2 hpx)
      · rw [if_neg hpy]
        rw [List.length_cons]
        exact Nat.lt_succ_of_lt (length_filter_lt p l2 x h2 hpx)

/-- C2: for a mapping whose destination item exists with modification
time T, backup() creates an item named original-name.ba.<T formatted
YYYY-MM-DD-HH:MM:SS> — the timestamp computed from the replaced item's
own modification time, never the wall clock of the backup — whose content
equals the original (the whole subtree moves across), and immediately
afterwards the original name no longer exists: the item was renamed, not
copied. -/
theorem backup_renames_to_timestamped
    (g : ConfGroup) (fs fs1 : FS) (pre post : List (Path × Path))
    (sm dm : Path) (n : Node)
    (hsplit : g.install_files = pre ++ (sm, dm) :: post)
    (hpre : backupList g.max_backups g.dest pre fs = fs1)
    (hnd : FS.keysNodup fs1)
    (hex : FS.lookup fs1 (g.dest ++ dm) = some n)
    (hev : evictOld (moveTree fs1 (g.dest ++ dm)
        (backupName (g.dest ++ dm) n.mtime)) (g.dest ++ dm) g.max_backups =
      moveTree fs1 (g.dest ++ dm) (backupName (g.dest ++ dm) n.mtime)) :
    ConfGroup.backup g fs =
      backupList g.max_backups g.dest post
        (moveTree fs1 (g.dest ++ dm) (backupName (g.dest ++ dm) n.mtime)) ∧
    FS.lookup (moveTree fs1 (g.dest ++ dm) (backupName (g.dest ++ dm) n.mtime))
      (backupName (g.dest ++ dm) n.mtime) = some n ∧
    (∀ rel m2, (rel, m2) ∈ FS.subtree fs1 (g.dest ++ dm) →
      FS.lookup (moveTree fs1 (g.dest ++ dm) (backupName (g.dest ++ dm) n.mtime))
        (backupName (g.dest ++ dm) n.mtime ++ rel) = some m2) ∧
    FS.lookup (moveTree fs1 (g.dest ++ dm) (backupName (g.dest ++ dm) n.mtime))
      (g.dest ++ dm) = none := by
  refine ⟨?_, ?_, ?_, ?_⟩
  · unfold ConfGroup.backup
    rw [hsplit, backupList_append, hpre, backupList_cons]
    unfold backupIfExists
    rw [hex]
    dsimp only
    rw [hev]
  · have h0 := lookup_moveTree_moved hnd (backupName (g.dest ++ dm) n.mtime)
      (self_mem_subtree hex)
    rw [List.append_nil] at h0
    exact h0
  · intro rel m2 hm
    exact lookup_moveTree_moved hnd _ hm
  · exact lookup_moveTree_oldpath_none fs1 (isPre_backupName_self_false _ _)

def wfsC2 : FS := [([], .dir 0), (["dst"], .dir 1),
  (["dst", "t"], .file "c" 1700000000)]

def wgC2 : ConfGroup :=
  ⟨"g", ["dst"], [(["repo", "t"], ["t"])], none, [], [], [], none, none⟩

theorem backup_renames_to_timestamped_witness :
    FS.lookup (ConfGroup.backup wgC2 wfsC2) ["dst", "t.ba.2023-11-14-22:13:20"] =
      some (.file "c" 1700000000) ∧
    FS.lookup (ConfGroup.backup wgC2 wfsC2) ["dst", "t"] = none := by
  have h := backup_renames_to_timestamped wgC2 wfsC2 wfsC2 [] [] ["repo", "t"]
    ["t"] (.file "c" 1700000000) rfl rfl (by decide) (by decide) rfl
  constructor
  · rw [h.1]
    exact h.2.1
  · rw [h.1]
    exact h.2.2.2

/-- The core of rotation: with distinct modification times, evicting down
to k keeps exactly the siblings with fewer than k strictly newer ones. -/
theorem evict_characterization (sibsAll : FS) (fs2 : FS) (p : Path) (k : Nat)
    (hfs2sib : backupSiblings fs2 p = sibsAll)
    (hnd2 : FS.keysNodup fs2)
    (hallsib : ∀ x ∈ sibsAll, sibPred p x = true)
    (hdist : sibsAll.Pairwise (fun a b => a.2.mtime ≠ b.2.mtime)) :
    (backupSiblings (evictOld fs2 p (some k)) p).length = min sibsAll.length k ∧
    ∀ e ∈ sibsAll,
      (e ∈ backupSiblings (evictOld fs2 p (some k)) p ↔
        (sibsAll.filter (fun f => decide (e.2.mtime < f.2.mtime))).length < k) := by
  have hndAll : FS.keysNodup sibsAll := by
    rw [← hfs2sib]
    exact FS.keysNodup_filter hnd2 _
  have hnodAll : sibsAll.Nodup := List.Nodup.of_map _ hndAll
  have hperm : (sortByMtime sibsAll).Perm sibsAll := perm_sortByMtime sibsAll
  have hsortnodup : (sortByMtime sibsAll).Nodup := hperm.nodup_iff.mpr hnodAll
  have hsortNE : (sortByMtime sibsAll).Pairwise
      (fun a b => a.2.mtime ≠ b.2.mtime) :=
    (List.Perm.pairwise_iff (fun h => h.symm) hperm).mpr hdist
  have hsortLT : (sortByMtime sibsAll).Pairwise
      (fun a b => a.2.mtime < b.2.mtime) :=
    ((sorted_sortByMtime sibsAll).and hsortNE).imp
      (fun h => Nat.lt_of_le_of_ne h.1 h.2)
  have hlen : (sortByMtime sibsAll).length = sibsAll.length := hperm.length_eq
  have hres : evictOld fs2 p (some k) =
      ((sortByMtime sibsAll).take ((sortByMtime sibsAll).length - k)).foldl
        (fun a e => FS.eraseTree a e.1) fs2 := by
    unfold evictOld
    rw [hfs2sib]
  have hdelsub : ∀ dd ∈ (sortByMtime sibsAll).take
      ((sortByMtime sibsAll).length - k), dd ∈ sibsAll :=
    fun dd hdd => hperm.mem_iff.mp (List.mem_of_mem_take hdd)
  have hkeylen : ∀ x ∈ sibsAll, x.1.length = p.length :=
    fun x hx => sibPred_length (hallsib x hx)
  have hmemdel : ∀ e ∈ sibsAll,
      (((sortByMtime sibsAll).take ((sortByMtime sibsAll).length - k)).any
        (fun dd => isPre dd.1 e.1)) =
      decide (e ∈ (sortByMtime sibsAll).take
        ((sortByMtime sibsAll).length - k)) := by
    intro e he
    have hstep : (((sortByMtime sibsAll).take
        ((sortByMtime sibsAll).length - k)).any (fun dd => isPre dd.1 e.1)) =
        (((sortByMtime sibsAll).take ((sortByMtime sibsAll).length - k)).any
          (fun dd => decide (dd.1 = e.1))) := by
      apply any_congr_mem
      intro dd hdd
      have hddlen := hkeylen dd (hdelsub dd hdd)
      have helen := hkeylen e he
      cases hcase : isPre dd.1 e.1 with
      | true =>
        have heq : e.1 = dd.1 :=
          eq_of_isPre_of_length hcase (by omega)
        rw [heq]
        simp
      | false =>
        cases hdec : decide (dd.1 = e.1) with
        | false => rfl
        | true =>
          exfalso
          have heq := of_decide_eq_true hdec
          rw [heq, isPre_refl] at hcase
          simp at hcase
    rw [hstep]
    by_cases hmem : e ∈ (sortByMtime sibsAll).take
        ((sortByMtime sibsAll).length - k)
    · rw [decide_eq_true hmem]
      rw [List.any_eq_true]
      exact ⟨e, hmem, by simp⟩
    · rw [decide_eq_false hmem]
      rw [show (((sortByMtime sibsAll).take ((sortByMtime sibsAll).length - k)).any
          (fun dd => decide (dd.1 = e.1))) = false from ?_]
      rw [Bool.eq_false_iff]
      intro hc
      rw [List.any_eq_true] at hc
      obtain ⟨dd, hdd, hddk⟩ := hc
      have heq : dd = e := eq_of_same_key hndAll (hdelsub dd hdd) he
        (of_decide_eq_true hddk)
      exact hmem (heq ▸ hdd)
  have hsibs : backupSiblings (evictOld fs2 p (some k)) p =
      sibsAll.filter (fun e => !(decide (e ∈ (sortByMtime sibsAll).take
        ((sortByMtime sibsAll).length - k)))) := by
    rw [hres, foldl_eraseTree_eq]
    unfold backupSiblings
    rw [List.filter_filter]
    have hcongr : List.filter (fun a => sibPred p a &&
        !(((sortByMtime sibsAll).take ((sortByMtime sibsAll).length - k)).any
          (fun dd => isPre dd.1 a.1))) fs2 =
        List.filter (fun e =>
          (!(decide (e ∈ (sortByMtime sibsAll).take
            ((sortByMtime sibsAll).length - k)))) && sibPred p e) fs2 := by
      apply List.filter_congr
      intro e he2
      cases hsib : sibPred p e with
      | false => simp [hsib]
      | true =>
        have hesib : e ∈ sibsAll := by
          rw [← hfs2sib]
          exact List.mem_filter.mpr ⟨he2, hsib⟩
        rw [hmemdel e hesib]
        rw [Bool.and_comm]
    rw [hcongr, ← List.filter_filter]
    rw [show List.filter (sibPred p) fs2 = sibsAll from hfs2sib]
  constructor
  · rw [hsibs]
    have hpermfil := (hperm.filter (fun e => !(decide (e ∈ (sortByMtime
        sibsAll).take ((sortByMtime sibsAll).length - k)))))
    rw [← hpermfil.length_eq]
    have hfnm := filter_not_mem_take (sortByMtime sibsAll)
      ((sortByMtime sibsAll).length - k) hsortnodup
    have hlen2 := congrArg List.length hfnm
    rw [List.length_drop] at hlen2
    have hgoal : (sortByMtime sibsAll).length -
        ((sortByMtime sibsAll).length - k) = min sibsAll.length k := by omega
    exact hlen2.trans hgoal
  · intro e he
    rw [hsibs]
    rw [List.mem_filter]
    have hkept : (e ∈ sibsAll ∧
        (!(decide (e ∈ (sortByMtime sibsAll).take
          ((sortByMtime sibsAll).length - k)))) = true) ↔
        e ∈ (sortByMtime sibsAll).drop ((sortByMtime sibsAll).length - k) := by
      constructor
      · intro hc
        have hnm := hc.2
        simp at hnm
        have hes : e ∈ (sortByMtime sibsAll) := hperm.mem_iff.mpr he
        rw [← List.take_append_drop ((sortByMtime sibsAll).length - k)
          (sortByMtime sibsAll)] at hes
        rcases List.mem_append.mp hes with h1 | h2
        · exact absurd h1 hnm
        · exact h2
      · intro hc
        refine ⟨he, ?_⟩
        have hnotin : e ∉ (sortByMtime sibsAll).take
            ((sortByMtime sibsAll).length - k) := by
          intro hc2
          have hnd3 : ((sortByMtime sibsAll).take
              ((sortByMtime sibsAll).length - k) ++
              (sortByMtime sibsAll).drop
                ((sortByMtime sibsAll).length - k)).Nodup := by
            rw [List.take_append_drop]
            exact hsortnodup
          rw [List.nodup_append] at hnd3
          exact hnd3.2.2 hc2 hc
        simp [hnotin]
    rw [hkept]
    have hcount := mem_drop_iff_count_lt ((sortByMtime sibsAll).length - k)
      hsortLT hsortnodup e (hperm.mem_iff.mpr he)
    rw [hcount]
    have hcfil : ((sortByMtime sibsAll).filter
        (fun f => decide (e.2.mtime < f.2.mtime))).length =
        (sibsAll.filter (fun f => decide (e.2.mtime < f.2.mtime))).length :=
      (hperm.filter _).length_eq
    rw [hcfil]
    have hclt : (sibsAll.filter (fun f => decide (e.2.mtime < f.2.mtime))).length
        < sibsAll.length := by
      apply length_filter_lt _ sibsAll e he
      simp
    constructor
    · intro hlt
      omega
    · intro hlt
      omega

/-- C3: rotation at the BackupRotator level.  Backing a destination up
adds one sibling (the fresh move, carrying the replaced item's own
mtime); with max_backups unset no eviction happens — every sibling
survives, so iterating grows the set without bound; with max_backups = k
exactly min(count, k) siblings remain, and a sibling survives exactly
when fewer than k siblings are more recently modified — the oldest are
evicted first, keeping the k most recent. -/
theorem backup_rotation_keeps_k_most_recent
    (fs : FS) (p : Path) (n : Node)
    (hnd : FS.keysNodup fs) (hp : p ≠ [])
    (hex : FS.lookup fs p = some n)
    (hfresh : ∀ e ∈ fs, isPre (backupName p n.mtime) e.1 = false)
    (hdist : ((backupName p n.mtime, n) :: backupSiblings fs p).Pairwise
      (fun a b => a.2.mtime ≠ b.2.mtime)) :
    backupSiblings (backupIfExists fs p none).1 p =
      (backupName p n.mtime, n) :: backupSiblings fs p ∧
    ∀ k : Nat,
      (backupSiblings (backupIfExists fs p (some k)).1 p).length =
        min ((backupName p n.mtime, n) :: backupSiblings fs p).length k ∧
      ∀ e ∈ (backupName p n.mtime, n) :: backupSiblings fs p,
        (e ∈ backupSiblings (backupIfExists fs p (some k)).1 p ↔
          (((backupName p n.mtime, n) :: backupSiblings fs p).filter
            (fun f => decide (e.2.mtime < f.2.mtime))).length < k) := by
  have hmove := backupSiblings_moveTree hnd hp hex n.mtime hfresh
  have hnd2 : FS.keysNodup (moveTree fs p (backupName p n.mtime)) :=
    keysNodup_moveTree hnd p _
  have hallsib : ∀ x ∈ (backupName p n.mtime, n) :: backupSiblings fs p,
      sibPred p x = true := by
    intro x hx
    rcases List.mem_cons.mp hx with h1 | h2
    · rw [h1]
      exact sibPred_backupName hp n.mtime n
    · exact (List.mem_filter.mp h2).2
  constructor
  · have hb0 : (backupIfExists fs p none).1 =
        moveTree fs p (backupName p n.mtime) := by
      unfold backupIfExists
      rw [hex]
      rfl
    rw [hb0]
    exact hmove
  · intro k
    have hb : (backupIfExists fs p (some k)).1 =
        evictOld (moveTree fs p (backupName p n.mtime)) p (some k) := by
      unfold backupIfExists
      rw [hex]
    rw [hb]
    exact evict_characterization _ _ p k hmove hnd2 hallsib hdist

def wfsC3 : FS := [([], .dir 0), (["d"], .dir 1), (["d", "t"], .file "c" 50),
  (["d", "t.ba.a"], .file "c" 10), (["d", "t.ba.b"], .file "c" 20),
  (["d", "t.ba.c"], .file "c" 30), (["d", "t.ba.d"], .file "c" 40)]

theorem backup_rotation_keeps_k_most_recent_witness :
    (backupSiblings (backupIfExists wfsC3 ["d", "t"] (some 3)).1
      ["d", "t"]).length = 3 ∧
    ((["d", "t.ba.d"], Node.file "c" 40) ∈
      backupSiblings (backupIfExists wfsC3 ["d", "t"] (some 3)).1 ["d", "t"]) ∧
    ((["d", "t.ba.a"], Node.file "c" 10) ∉
      backupSiblings (backupIfExists wfsC3 ["d", "t"] (some 3)).1 ["d", "t"]) := by
  have h := backup_rotation_keeps_k_most_recent wfsC3 ["d", "t"]
    (.file "c" 50) (by decide) (by decide) (by decide) (by decide) (by decide)
  have h3 := h.2 3
  refine ⟨?_, ?_, ?_⟩
  · exact h3.1.trans (by decide)
  · exact (h3.2 (["d", "t.ba.d"], .file "c" 40) (by decide)).mpr (by decide)
  · intro hc
    exact absurd ((h3.2 (["d", "t.ba.a"], .file "c" 10) (by decide)).mp hc)
      (by decide)

/-! ### Strategy equivalence (claim C6)

The two copy strategies build the destination overlay in different
orders: the fast one as a single batch, the fallback one entry by entry.
Their results are permutations of one another, and on states with unique
keys a permutation is observationally invisible — every lookup agrees.
The congruence lemmas below push that equivalence through install,
synchronize and apply. -/

theorem perm_keysNodup {fs1 fs2 : FS} (h : fs1.Perm fs2)
    (hnd : FS.keysNodup fs1) : FS.keysNodup fs2 :=
  ((h.map Prod.fst).nodup_iff).mp hnd

theorem perm_lookup {fs1 fs2 : FS} (h : fs1.Perm fs2)
    (hnd : FS.keysNodup fs1) (q : Path) :
    FS.lookup fs1 q = FS.lookup fs2 q := by
  cases hl : FS.lookup fs1 q with
  | some n =>
    exact (FS.mem_lookup (perm_keysNodup h hnd)
      (h.mem_iff.mp (FS.lookup_mem hl))).symm
  | none =>
    rw [FS.lookup_eq_none_iff] at hl
    symm
    rw [FS.lookup_eq_none_iff]
    intro hm
    exact hl (((h.map Prod.fst).mem_iff).mpr hm)

theorem perm_any {α : Type} {l1 l2 : List α} (h : l1.Perm l2) (f : α → Bool) :
    l1.any f = l2.any f := by
  cases h2 : l2.any f with
  | true =>
    rw [List.any_eq_true] at h2 ⊢
    obtain ⟨x, hx, hfx⟩ := h2
    exact ⟨x, h.mem_iff.mpr hx, hfx⟩
  | false =>
    rw [List.any_eq_false] at h2 ⊢
    intro x hx
    exact h2 x (h.mem_iff.mp hx)

theorem setAll_eq : ∀ (es : FS), (FS.keys es).Nodup → ∀ (fs : FS),
    setAll es fs = es.reverse ++ fs.filter (fun e => !(keyIn es e.1))
  | [], _, fs => by
    simp [setAll, keyIn]
  | e :: es, hnd, fs => by
    have hnd2 : e.1 ∉ FS.keys es ∧ (FS.keys es).Nodup := by
      have hnd3 : (FS.keys (e :: es)).Nodup := hnd
      rw [show FS.keys (e :: es) = e.1 :: FS.keys es from rfl,
        List.nodup_cons] at hnd3
      exact hnd3
    rw [setAll_cons, setAll_eq es hnd2.2 (FS.set fs e.1 e.2)]
    rw [List.reverse_cons, List.append_assoc]
    congr 1
    unfold FS.set
    rw [List.filter_cons]
    have hke : keyIn es e.1 = false := by
      rw [Bool.eq_false_iff]
      intro hc
      exact hnd2.1 ((keyIn_eq_true_iff es e.1).mp hc)
    rw [if_pos (by simp [hke])]
    rw [List.singleton_append]
    congr 1
    unfold FS.erase
    rw [List.filter_filter]
    apply List.filter_congr
    intro x _
    unfold keyIn
    rw [List.any_cons]
    by_cases hx : x.1 = e.1
    · simp [hx]
    · simp [hx, show ¬(e.1 = x.1) from fun hc => hx hc.symm]

theorem fallback_perm_fast {fs : FS} (hnd : FS.keysNodup fs) (s d : Path) :
    (copyTreeFallback fs s d).Perm (copyTreeFast fs s d) := by
  unfold copyTreeFallback copyTreeFast
  rw [setAll_eq _ (keysNodup_reroot (keysNodup_subtree hnd s) d) fs]
  exact List.Perm.append_right _ (List.reverse_perm _)

theorem set_perm {fs1 fs2 : FS} (h : fs1.Perm fs2) (p : Path) (n : Node) :
    (FS.set fs1 p n).Perm (FS.set fs2 p n) := by
  unfold FS.set FS.erase
  exact (h.filter _).cons _

theorem parentsFold_perm : ∀ (l : List Path) {fs1 fs2 : FS}, fs1.Perm fs2 →
    FS.keysNodup fs1 →
    (l.foldl (fun a q => if FS.pathExists a q then a
      else FS.set a q (.dir 0)) fs1).Perm
    (l.foldl (fun a q => if FS.pathExists a q then a
      else FS.set a q (.dir 0)) fs2)
  | [], _, _, h, _ => h
  | q :: l, fs1, fs2, h, hnd => by
    rw [List.foldl_cons, List.foldl_cons]
    have hpe : FS.pathExists fs1 q = FS.pathExists fs2 q := by
      unfold FS.pathExists
      rw [perm_lookup h hnd q]
    by_cases hq : FS.pathExists fs1 q = true
    · rw [if_pos hq, if_pos (hpe ▸ hq)]
      exact parentsFold_perm l h hnd
    · rw [if_neg hq, if_neg (hpe ▸ hq)]
      exact parentsFold_perm l (set_perm h q _) (FS.keysNodup_set hnd q _)

theorem mkParents_perm {fs1 fs2 : FS} (h : fs1.Perm fs2)
    (hnd : FS.keysNodup fs1) (p : Path) :
    (mkParents fs1 p).Perm (mkParents fs2 p) :=
  parentsFold_perm (ancestors p) h hnd

theorem subtree_perm {fs1 fs2 : FS} (h : fs1.Perm fs2) (b : Path) :
    (FS.subtree fs1 b).Perm (FS.subtree fs2 b) :=
  (h.filter _).map _

theorem fast_perm_fast {fs1 fs2 : FS} (h : fs1.Perm fs2)
    (_hnd : FS.keysNodup fs1) (s d : Path) :
    (copyTreeFast fs1 s d).Perm (copyTreeFast fs2 s d) := by
  unfold copyTreeFast
  have hsub : (reroot (FS.subtree fs1 s) d).Perm (reroot (FS.subtree fs2 s) d) :=
    (subtree_perm h s).map _
  apply List.Perm.append hsub
  have hcongr : fs1.filter (fun e => !(keyIn (reroot (FS.subtree fs1 s) d) e.1)) =
      fs1.filter (fun e => !(keyIn (reroot (FS.subtree fs2 s) d) e.1)) := by
    apply List.filter_congr
    intro e _
    unfold keyIn
    rw [perm_any hsub]
  rw [hcongr]
  exact h.filter _

/-- The central cross-strategy lemma: starting from permuted states with
unique keys, a copy under either strategy lands in permuted states. -/
theorem copyPath_cross (strat1 strat2 : Strategy) {fs1 fs2 : FS}
    (h : fs1.Perm fs2) (hnd : FS.keysNodup fs1) (s d : Path) :
    (copyPath strat1 fs1 s d).Perm (copyPath strat2 fs2 s d) := by
  have hndP : FS.keysNodup (mkParents fs1 d) := FS.keysNodup_mkParents hnd d
  have hP : (mkParents fs1 d).Perm (mkParents fs2 d) := mkParents_perm h hnd d
  have hndP2 : FS.keysNodup (mkParents fs2 d) := perm_keysNodup hP hndP
  have hfastP : (copyTreeFast (mkParents fs1 d) s d).Perm
      (copyTreeFast (mkParents fs2 d) s d) := fast_perm_fast hP hndP s d
  unfold copyPath
  rw [← perm_lookup h hnd s]
  cases hl : FS.lookup fs1 s with
  | none => exact h
  | some n =>
    cases n with
    | file c t => exact set_perm hP d _
    | dir t =>
      cases strat1 with
      | fast =>
        cases strat2 with
        | fast => exact hfastP
        | fallback =>
          exact hfastP.trans (fallback_perm_fast hndP2 s d).symm
      | fallback =>
        cases strat2 with
        | fast => exact (fallback_perm_fast hndP s d).trans hfastP
        | fallback =>
          exact ((fallback_perm_fast hndP s d).trans hfastP).trans
            (fallback_perm_fast hndP2 s d).symm

theorem resolveMapping_congr {fs1 fs2 : FS} (h : fs1.Perm fs2)
    (hnd : FS.keysNodup fs1) (dest : Path) (m : Path × Path) :
    resolveMapping fs1 dest m = resolveMapping fs2 dest m := by
  unfold resolveMapping
  dsimp only
  rw [perm_lookup h hnd m.1, perm_lookup h hnd (dest ++ m.2)]

theorem pathExists_congr {fs1 fs2 : FS} (h : fs1.Perm fs2)
    (hnd : FS.keysNodup fs1) (p : Path) :
    FS.pathExists fs1 p = FS.pathExists fs2 p := by
  unfold FS.pathExists
  rw [perm_lookup h hnd p]

theorem differs_congr {fs1 fs2 : FS} (h : fs1.Perm fs2)
    (hnd : FS.keysNodup fs1) (s d : Path) :
    differs fs1 s d = differs fs2 s d := by
  unfold differs
  rw [perm_lookup h hnd s, perm_lookup h hnd d]
  cases FS.lookup fs2 s with
  | none => cases FS.lookup fs2 d with
    | none => rfl
    | some dn => rfl
  | some sn =>
    cases FS.lookup fs2 d with
    | none => rfl
    | some dn =>
      cases sn <;> cases dn <;> dsimp only
      case dir.dir ts td =>
        congr 1
        · rw [any_congr_mem (fun e _ => by rw [perm_lookup h hnd (d ++ e.1)])]
          exact perm_any (subtree_perm h s) _
        · rw [any_congr_mem (fun e _ => by rw [pathExists_congr h hnd (s ++ e.1)])]
          exact perm_any (subtree_perm h d) _

theorem installList_cross (strat1 strat2 : Strategy) (dest : Path)
    (force : Bool) :
    ∀ (ms : List (Path × Path)) {fs1 fs2 : FS}, fs1.Perm fs2 →
    FS.keysNodup fs1 →
    (installList strat1 dest force ms fs1).2 =
      (installList strat2 dest force ms fs2).2 ∧
    ((installList strat1 dest force ms fs1).1).Perm
      ((installList strat2 dest force ms fs2).1)
  | [], _, _, h, _ => ⟨rfl, h⟩
  | m :: ms, fs1, fs2, h, hnd => by
    rw [installList_cons, installList_cons]
    rw [← resolveMapping_congr h hnd dest m]
    cases hr : resolveMapping fs1 dest m with
    | error e => exact ⟨rfl, h⟩
    | ok v =>
      obtain ⟨s, d, k⟩ := v
      dsimp only
      rw [← pathExists_congr h hnd d]
      by_cases hc : (FS.pathExists fs1 d && !force) = true
      · rw [if_pos hc, if_pos hc]
        exact ⟨rfl, h⟩
      · rw [if_neg hc, if_neg hc]
        exact installList_cross strat1 strat2 dest force ms
          (copyPath_cross strat1 strat2 h hnd s d)
          (FS.keysNodup_copyPath strat1 hnd s d)

theorem syncList_cross (strat1 strat2 : Strategy) (dest : Path) :
    ∀ (ms : List (Path × Path)) {fs1 fs2 : FS}, fs1.Perm fs2 →
    FS.keysNodup fs1 →
    (syncList strat1 dest ms fs1).Perm (syncList strat2 dest ms fs2)
  | [], _, _, h, _ => h
  | m :: ms, fs1, fs2, h, hnd => by
    rw [syncList_cons, syncList_cons]
    rw [← pathExists_congr h hnd (dest ++ m.2)]
    by_cases hc : FS.pathExists fs1 (dest ++ m.2) = true
    · rw [if_pos hc, if_pos hc]
      exact syncList_cross strat1 strat2 dest ms
        (copyPath_cross strat1 strat2 h hnd _ _)
        (FS.keysNodup_copyPath strat1 hnd _ _)
    · rw [if_neg hc, if_neg hc]
      exact syncList_cross strat1 strat2 dest ms h hnd

theorem applyList_cross (strat1 strat2 : Strategy) (dest : Path) :
    ∀ (ms : List (Path × Path)) {fs1 fs2 : FS}, fs1.Perm fs2 →
    FS.keysNodup fs1 →
    (applyList strat1 dest ms fs1).Perm (applyList strat2 dest ms fs2)
  | [], _, _, h, _ => h
  | m :: ms, fs1, fs2, h, hnd => by
    rw [applyList_cons, applyList_cons]
    rw [← differs_congr h hnd m.1 (dest ++ m.2)]
    by_cases hc : differs fs1 m.1 (dest ++ m.2) = true
    · rw [if_pos hc, if_pos hc]
      exact applyList_cross strat1 strat2 dest ms
        (copyPath_cross strat1 strat2 h hnd _ _)
        (FS.keysNodup_copyPath strat1 hnd _ _)
    · rw [if_neg hc, if_neg hc]
      exact applyList_cross strat1 strat2 dest ms h hnd

theorem installList_keysNodup (strat : Strategy) (dest : Path) (force : Bool) :
    ∀ (ms : List (Path × Path)) {fs : FS}, FS.keysNodup fs →
    FS.keysNodup (installList strat dest force ms fs).1
  | [], _, h => h
  | m :: ms, fs, h => by
    rw [installList_cons]
    cases hr : resolveMapping fs dest m with
    | error e => exact h
    | ok v =>
      obtain ⟨s, d, k⟩ := v
      dsimp only
      by_cases hc : (FS.pathExists fs d && !force) = true
      · rw [if_pos hc]
        exact h
      · rw [if_neg hc]
        exact installList_keysNodup strat dest force ms
          (FS.keysNodup_copyPath strat h s d)

theorem syncList_keysNodup (strat : Strategy) (dest : Path) :
    ∀ (ms : List (Path × Path)) {fs : FS}, FS.keysNodup fs →
    FS.keysNodup (syncList strat dest ms fs)
  | [], _, h => h
  | m :: ms, fs, h => by
    rw [syncList_cons]
    by_cases hc : FS.pathExists fs (dest ++ m.2) = true
    · rw [if_pos hc]
      exact syncList_keysNodup strat dest ms
        (FS.keysNodup_copyPath strat h _ _)
    · rw [if_neg hc]
      exact syncList_keysNodup strat dest ms h

theorem applyList_keysNodup (strat : Strategy) (dest : Path) :
    ∀ (ms : List (Path × Path)) {fs : FS}, FS.keysNodup fs →
    FS.keysNodup (applyList strat dest ms fs)
  | [], _, h => h
  | m :: ms, fs, h => by
    rw [applyList_cons]
    by_cases hc : differs fs m.1 (dest ++ m.2) = true
    · rw [if_pos hc]
      exact applyList_keysNodup strat dest ms
        (FS.keysNodup_copyPath strat h _ _)
    · rw [if_neg hc]
      exact applyList_keysNodup strat dest ms h

/-- C6: the fast (rsync) strategy and the built-in fallback produce the
same observable result on every well-formed state: install raises the
same error or none under either, and after install, synchronize or apply
every path holds the same content regardless of which strategy was
selected. -/
theorem copy_strategies_observably_equal (g : ConfGroup) (fs : FS)
    (force : Bool) (hnd : FS.keysNodup fs) :
    (ConfGroup.install .fast g force fs).2 =
      (ConfGroup.install .fallback g force fs).2 ∧
    (∀ q, FS.lookup (ConfGroup.install .fast g force fs).1 q =
      FS.lookup (ConfGroup.install .fallback g force fs).1 q) ∧
    (∀ q, FS.lookup (ConfGroup.synchronize .fast g fs) q =
      FS.lookup (ConfGroup.synchronize .fallback g fs) q) ∧
    (∀ q, FS.lookup (ConfGroup.apply .fast g fs) q =
      FS.lookup (ConfGroup.apply .fallback g fs) q) := by
  have hi := installList_cross .fast .fallback g.dest force g.install_files
    (List.Perm.refl fs) hnd
  refine ⟨hi.1, ?_, ?_, ?_⟩
  · intro q
    exact perm_lookup hi.2
      (installList_keysNodup .fast g.dest force g.install_files hnd) q
  · intro q
    exact perm_lookup
      (syncList_cross .fast .fallback g.dest _ (List.Perm.refl fs) hnd)
      (syncList_keysNodup .fast g.dest _ hnd) q
  · intro q
    exact perm_lookup
      (applyList_cross .fast .fallback g.dest g.install_files
        (List.Perm.refl fs) hnd)
      (applyList_keysNodup .fast g.dest g.install_files hnd) q

def wfsC6 : FS := [([], .dir 0), (["a"], .dir 1), (["a", "f"], .file "z" 2),
  (["dst"], .dir 3)]

def wgC6 : ConfGroup :=
  ⟨"g", ["dst"], [(["a"], ["b"])], none, [], [], [], none, none⟩

theorem copy_strategies_observably_equal_witness :
    (ConfGroup.install .fast wgC6 false wfsC6).2 =
      (ConfGroup.install .fallback wgC6 false wfsC6).2 ∧
    FS.lookup (ConfGroup.install .fast wgC6 false wfsC6).1 ["dst", "b", "f"] =
      FS.lookup (ConfGroup.install .fallback wgC6 false wfsC6).1
        ["dst", "b", "f"] ∧
    FS.lookup (ConfGroup.apply .fast wgC6 wfsC6) ["dst", "b", "f"] =
      FS.lookup (ConfGroup.apply .fallback wgC6 wfsC6) ["dst", "b", "f"] := by
  have h := copy_strategies_observably_equal wgC6 wfsC6 false (by decide)
  exact ⟨h.1, h.2.1 _, h.2.2.2 _⟩

end Confit
